import Mathlib

/-!
# gophercast: an in-process publish/subscribe broker

A shallow embedding of `internal/domain/{topic,message,subscription,broker}` and
proofs about it.

Modelling conventions

* Go strings are modelled by `String`; `regexp.MatchString` decodes its input into
  runes, so a rune-wise model of the pattern is faithful.
* A buffered Go channel is a record of its buffer, its capacity and its closed bit.
  Sending on a closed channel and closing a closed channel panic in Go; here they
  return `Except.error`.
* `*Subscription` values live in a heap (a list); a pointer is an index into it.
  An index outside the heap plays the role of the nil pointer.
* `go sub.SendMessage(msg)` pushes a task on a pool of pending goroutines; a separate
  step runs a pending task.
* Iteration over a Go map visits the keys in an order chosen by the runtime; that order
  is an explicit argument of the operations that range over the registry.
-/

deriving instance DecidableEq for Except

namespace Gophercast

/-! ## topic -/

/-- A named channel of communication (`topic.Topic`). -/
structure Topic where
  name : String
  deriving DecidableEq, Repr

/-- The rune `c` lies in the closed range `lo-hi` of a character class. -/
def inRange (lo hi c : Char) : Bool :=
  decide (lo.toNat ≤ c.toNat) && decide (c.toNat ≤ hi.toNat)

/-- The character class `[a-zA-Z0-9.-]` of the pattern in `isValidTopicName`. -/
def topicClass (c : Char) : Bool :=
  inRange 'a' 'z' c || inRange 'A' 'Z' c || inRange '0' '9' c || c == '.' || c == '-'

/-- Matching of `[a-zA-Z0-9.-]+$` at the head of the remaining input: one rune of
the class, then either the end of the text or the same again. -/
def matchClassPlus : List Char → Bool
  | [] => false
  | c :: cs => topicClass c && (cs.isEmpty || matchClassPlus cs)

/-- The function `isValidTopicName`: `regexp.MatchString` with the pattern
`^[a-zA-Z0-9.-]+$`. The pattern is anchored at both ends, so the match starts at the
first rune. -/
def isValidTopicName (name : String) : Bool :=
  matchClassPlus name.toList

/-- Errors returned by `topic.New`. -/
inductive TopicError where
  | emptyName
  | invalidName
  deriving DecidableEq, Repr

/-- The constructor `topic.New`. -/
def New (name : String) : Except TopicError Topic :=
  if name = "" then
    .error .emptyName
  else if !isValidTopicName name then
    .error .invalidName
  else
    .ok { name := name }

/-- The method `Topic.String`. -/
def Topic.String (t : Topic) : String := t.name

/-- The method `Topic.Equals`. -/
def Topic.Equals (t other : Topic) : Bool := t.name == other.name

/-! ## message -/

/-- An immutable message (`message.Message`); the payload is kept as text and the
timestamp as a number. -/
structure Message where
  id : String
  topic : Topic
  data : String
  publishedAt : Nat
  deriving DecidableEq, Repr

/-- One hexadecimal digit, lower case, as `encoding/hex` writes it. -/
def hexDigit (n : Nat) : Char :=
  "0123456789abcdef".toList.getD n '0'

/-- The function `hex.EncodeToString`: two digits per byte, high nibble first. -/
def hexEncode (bytes : List (Fin 256)) : String :=
  String.mk (bytes.flatMap fun b => [hexDigit (b.val / 16), hexDigit (b.val % 16)])

/-- The function `generateMessageID`; `rnd` is what `rand.Read` put in the 8-byte
buffer. -/
def generateMessageID (rnd : List (Fin 256)) : String :=
  hexEncode rnd

/-- The constructor `message.NewMessage`; the random bytes and the clock are inputs. -/
def NewMessage (rnd : List (Fin 256)) (now : Nat) (t : Topic) (data : String) : Message :=
  { id := generateMessageID rnd, topic := t, data := data, publishedAt := now }

/-- The accessor `Message.Topic`. -/
def Message.Topic (m : Message) : Topic := m.topic

/-- The accessor `Message.Data`. -/
def Message.Data (m : Message) : String := m.data

/-! ## channels -/

/-- The run-time panics the embedded code can raise. -/
inductive Fault where
  | sendOnClosedChannel
  | closeOfClosedChannel
  | nilDereference
  deriving DecidableEq, Repr

/-- A buffered channel of messages: the buffered elements (front first), the capacity
given to `make`, and whether `close` has been called. -/
structure Chan where
  buf : List Message
  cap : Nat
  closed : Bool
  deriving DecidableEq, Repr

/-- The expression `make(chan message.Message, cap)`. -/
def Chan.make (cap : Nat) : Chan :=
  { buf := [], cap := cap, closed := false }

/-- The statement `select { case ch <- msg: default: }`: a send on a closed channel
panics, a send on a channel with room appends to the buffer, otherwise the default
branch runs. -/
def Chan.trySend (ch : Chan) (msg : Message) : Except Fault Chan :=
  if ch.closed then
    .error .sendOnClosedChannel
  else if ch.buf.length < ch.cap then
    .ok { ch with buf := ch.buf ++ [msg] }
  else
    .ok ch

/-- The builtin `close(ch)`. -/
def Chan.close (ch : Chan) : Except Fault Chan :=
  if ch.closed then .error .closeOfClosedChannel else .ok { ch with closed := true }

/-- What a receive `v, ok := <-ch` observes. -/
inductive Recv where
  | value (msg : Message) (rest : Chan)
  | endOfStream
  | wouldBlock
  deriving DecidableEq, Repr

/-- The receive `<-ch`: the front of the buffer if there is one, end of stream on a
closed and drained channel, and otherwise the reader has to wait. -/
def Chan.recv (ch : Chan) : Recv :=
  match ch.buf with
  | msg :: rest => .value msg { ch with buf := rest }
  | [] => if ch.closed then .endOfStream else .wouldBlock

/-- The loop `for msg := range ch` of the consumers in the tests: the messages it
yields when it terminates, which it does at the end of the stream; `none` when the loop
is left waiting on an open and empty channel (or runs out of fuel). -/
def rangeChan : Nat → Chan → Option (List Message)
  | 0, _ => none
  | fuel + 1, ch =>
    match ch.recv with
    | .value msg rest => (rangeChan fuel rest).map fun msgs => msg :: msgs
    | .endOfStream => some []
    | .wouldBlock => none

/-! ## subscription -/

/-- A subscriber's registration (`subscription.Subscription`); the mutex is not
represented, every method below is one atomic step. -/
structure Subscription where
  id : String
  topic : Topic
  messageChannel : Chan
  createdAt : Nat
  closed : Bool
  deriving DecidableEq, Repr

/-- The function `generateSubscriptionID`. -/
def generateSubscriptionID (rnd : List (Fin 256)) : String :=
  hexEncode rnd

/-- The constructor `subscription.NewSubscription`. -/
def NewSubscription (rnd : List (Fin 256)) (now : Nat) (t : Topic) : Subscription :=
  { id := generateSubscriptionID rnd
    topic := t
    messageChannel := Chan.make 200
    createdAt := now
    closed := false }

/-- The accessor `Subscription.ID`. -/
def Subscription.ID (s : Subscription) : String := s.id

/-- The accessor `Subscription.Topic`. -/
def Subscription.Topic (s : Subscription) : Topic := s.topic

/-- The accessor `Subscription.MessageChannel`. -/
def Subscription.MessageChannel (s : Subscription) : Chan := s.messageChannel

/-- The method `Subscription.SendMessage`. -/
def Subscription.SendMessage (s : Subscription) (msg : Message) : Except Fault Subscription :=
  if s.closed then
    .ok s
  else
    match s.messageChannel.trySend msg with
    | .ok ch => .ok { s with messageChannel := ch }
    | .error e => .error e

/-- The method `Subscription.Close`. -/
def Subscription.Close (s : Subscription) : Except Fault Subscription :=
  if s.closed then
    .ok s
  else
    match s.messageChannel.close with
    | .ok ch => .ok { s with closed := true, messageChannel := ch }
    | .error e => .error e

/-- One read by the consumer from `s.MessageChannel()`: the message read, if any, and
the subscription afterwards. -/
def Subscription.receive (s : Subscription) : Option Message × Subscription :=
  match s.MessageChannel.recv with
  | .value msg rest => (some msg, { s with messageChannel := rest })
  | .endOfStream => (none, s)
  | .wouldBlock => (none, s)

/-! ## broker -/

/-- A `*Subscription`: an index into the heap. -/
abbrev Ptr := Nat

/-- The heap of allocated subscriptions. -/
abbrev Heap := List Subscription

/-- The type `map[string][]*subscription.Subscription`, as an association list. -/
abbrev Registry := List (String × List Ptr)

/-- The index expression `m[k]`; a missing key gives the nil slice. -/
def mapIndex : Registry → String → List Ptr
  | [], _ => []
  | (k', v) :: rest, k => if k' = k then v else mapIndex rest k

/-- Whether `k` is a key of the map. -/
def mapHasKey (m : Registry) (k : String) : Bool :=
  m.any fun e => e.1 == k

/-- The assignment `m[k] = v`. -/
def mapAssign : Registry → String → List Ptr → Registry
  | [], k, v => [(k, v)]
  | (k', v') :: rest, k, v =>
    if k' = k then (k, v) :: rest else (k', v') :: mapAssign rest k v

/-- The builtin `delete(m, k)`. -/
def mapDelete (m : Registry) (k : String) : Registry :=
  m.filter fun e => e.1 != k

/-- The keys of the map. -/
def mapKeys (m : Registry) : List String :=
  m.map Prod.fst

/-- The struct `broker.Broker`; the mutex is not represented. -/
structure Broker where
  subscriptions : Registry
  deriving DecidableEq, Repr

/-- The state of the program: the subscriptions allocated so far, the broker, and the
goroutines started by `Publish` that have not run yet (each is one pending call
`sub.SendMessage(msg)`). -/
structure World where
  heap : Heap
  broker : Broker
  goroutines : List (Ptr × Message)
  deriving DecidableEq, Repr

/-- The constructor `broker.NewBroker`, in a program that has allocated nothing. -/
def NewBroker : World :=
  { heap := [], broker := { subscriptions := [] }, goroutines := [] }

/-- Reading through a pointer. -/
def deref (heap : Heap) (p : Ptr) : Except Fault Subscription :=
  match heap[p]? with
  | some s => .ok s
  | none => .error .nilDereference

/-- The call `sub.Close()` through the pointer `p`. -/
def closeAt (p : Ptr) (heap : Heap) : Except Fault Heap :=
  match deref heap p with
  | .error e => .error e
  | .ok s =>
    match s.Close with
    | .ok s' => .ok (heap.set p s')
    | .error e => .error e

/-- The call `sub.SendMessage(msg)` through the pointer `p`. -/
def sendAt (p : Ptr) (msg : Message) (heap : Heap) : Except Fault Heap :=
  match deref heap p with
  | .error e => .error e
  | .ok s =>
    match s.SendMessage msg with
    | .ok s' => .ok (heap.set p s')
    | .error e => .error e

/-- The method `Broker.Subscribe`; returns the new state and the pointer handed to
the caller. -/
def Broker.Subscribe (rnd : List (Fin 256)) (now : Nat) (t : Topic) (w : World) :
    World × Ptr :=
  let sub := NewSubscription rnd now t
  let p := w.heap.length
  let topicName := t.String
  let subs := mapIndex w.broker.subscriptions topicName ++ [p]
  ({ w with
      heap := w.heap ++ [sub],
      broker := { subscriptions := mapAssign w.broker.subscriptions topicName subs } }, p)

/-- The inner loop of `Broker.Unsubscribe`: the index and the pointer of the first
element of `subs` whose `ID()` is `subscriptionID`. -/
def findSub (heap : Heap) (subscriptionID : String) : List Ptr → Except Fault (Option (Nat × Ptr))
  | [] => .ok none
  | p :: ps =>
    match deref heap p with
    | .error e => .error e
    | .ok sub =>
      if sub.ID = subscriptionID then
        .ok (some (0, p))
      else
        match findSub heap subscriptionID ps with
        | .error e => .error e
        | .ok none => .ok none
        | .ok (some (i, q)) => .ok (some (i + 1, q))

/-- The method `Broker.Unsubscribe`; `order` is the order in which the `range` over the
map visits the keys. -/
def Broker.Unsubscribe (order : List String) (subscriptionID : String) (w : World) :
    Except Fault World :=
  match order with
  | [] => .ok w
  | topicName :: rest =>
    let subs := mapIndex w.broker.subscriptions topicName
    match findSub w.heap subscriptionID subs with
    | .error e => .error e
    | .ok none => Broker.Unsubscribe rest subscriptionID w
    | .ok (some (i, sub)) =>
      match closeAt sub w.heap with
      | .error e => .error e
      | .ok heap' =>
        let subs' := subs.take i ++ subs.drop (i + 1)
        let m := mapAssign w.broker.subscriptions topicName subs'
        let m' := if subs'.length = 0 then mapDelete m topicName else m
        .ok { w with heap := heap', broker := { subscriptions := m' } }

/-- The method `Broker.Publish`: one goroutine `go sub.SendMessage(msg)` per element of
the slice read from the map. -/
def Broker.Publish (msg : Message) (w : World) : World :=
  let subs := mapIndex w.broker.subscriptions msg.Topic.String
  if subs.length = 0 then
    w
  else
    { w with goroutines := w.goroutines ++ subs.map fun sub => (sub, msg) }

/-- The inner loop of `Broker.Close`. -/
def closeEach : List Ptr → Heap → Except Fault Heap
  | [], heap => .ok heap
  | sub :: rest, heap =>
    match closeAt sub heap with
    | .error e => .error e
    | .ok heap' => closeEach rest heap'

/-- The outer loop of `Broker.Close`, over the keys in the order `order`. -/
def closeTopics (m : Registry) : List String → Heap → Except Fault Heap
  | [], heap => .ok heap
  | topicName :: rest, heap =>
    match closeEach (mapIndex m topicName) heap with
    | .error e => .error e
    | .ok heap' => closeTopics m rest heap'

/-- The method `Broker.Close`; `order` is the order in which the `range` over the map
visits the keys. -/
def Broker.Close (order : List String) (w : World) : Except Fault World :=
  match closeTopics w.broker.subscriptions order w.heap with
  | .error e => .error e
  | .ok heap' => .ok { w with heap := heap', broker := { subscriptions := [] } }

/-- The scheduler runs the pending goroutine number `i`. -/
def runGoroutine (i : Nat) (w : World) : Except Fault World :=
  match w.goroutines[i]? with
  | none => .ok w
  | some (sub, msg) =>
    match sendAt sub msg w.heap with
    | .error e => .error e
    | .ok heap' => .ok { w with heap := heap', goroutines := w.goroutines.eraseIdx i }

/-- The pending goroutines `tasks` run one after the other, in the order of the list. -/
def runAll : List (Ptr × Message) → Heap → Except Fault Heap
  | [], heap => .ok heap
  | (sub, msg) :: rest, heap =>
    match sendAt sub msg heap with
    | .error e => .error e
    | .ok heap' => runAll rest heap'

/-- The consumer holding the pointer `p` reads once from its message channel. -/
def consume (p : Ptr) (w : World) : Except Fault (Option Message × World) :=
  match deref w.heap p with
  | .error e => .error e
  | .ok s => .ok ((s.receive).1, { w with heap := w.heap.set p (s.receive).2 })

/-! ## the program as a transition system -/

/-- What the callers and the scheduler can do. -/
inductive Op where
  | subscribe (rnd : List (Fin 256)) (now : Nat) (t : Topic)
  | unsubscribe (order : List String) (subscriptionID : String)
  | publish (msg : Message)
  | close (order : List String)
  | schedule (i : Nat)
  | read (p : Ptr)
  deriving DecidableEq, Repr

/-- The order given to an operation that ranges over the map is an enumeration of the
keys of the map. -/
def Op.Admissible (op : Op) (w : World) : Prop :=
  match op with
  | .unsubscribe order _ => order.Perm (mapKeys w.broker.subscriptions)
  | .close order => order.Perm (mapKeys w.broker.subscriptions)
  | _ => True

instance (op : Op) (w : World) : Decidable (op.Admissible w) := by
  unfold Op.Admissible
  cases op <;> infer_instance

/-- One step of the program. -/
def step (op : Op) (w : World) : Except Fault World :=
  match op with
  | .subscribe rnd now t => .ok (Broker.Subscribe rnd now t w).1
  | .unsubscribe order subscriptionID => Broker.Unsubscribe order subscriptionID w
  | .publish msg => .ok (Broker.Publish msg w)
  | .close order => Broker.Close order w
  | .schedule i => runGoroutine i w
  | .read p =>
    match consume p w with
    | .error e => .error e
    | .ok r => .ok r.2

/-- The state `w'` is reached from `w` by finitely many admissible steps. -/
inductive Steps : World → World → Prop where
  | refl (w : World) : Steps w w
  | tail (w w' w'' : World) (op : Op) :
      Steps w w' → op.Admissible w' → step op w' = .ok w'' → Steps w w''

/-- The states reachable from `NewBroker`. -/
def Reachable (w : World) : Prop := Steps NewBroker w

/-! ## the broker with explicit slices

`Publish` reads the slice of a topic under the read lock and ranges over it after the
lock is released, while `Unsubscribe` and `Subscribe` build their new slices with
`append`, which writes into the backing array of its first argument when the capacity
allows. To follow what a `Publish` that is overtaken by another call sees, the model
below keeps the backing arrays: a slice is an array, a length and a capacity, and the
two halves of `Publish` are separate steps. -/

namespace Sliced

/-- A slice value `[]*Subscription`: the address of its backing array, its length and
its capacity. Every slice the broker makes starts at the first cell of its array. -/
structure Slice where
  arr : Nat
  len : Nat
  cap : Nat
  deriving DecidableEq, Repr

/-- The nil slice. -/
def Slice.nil : Slice := { arr := 0, len := 0, cap := 0 }

/-- The backing arrays allocated so far; a cell holds a pointer or nil. -/
abbrev Arrays := List (List (Option Ptr))

/-- The type `map[string][]*subscription.Subscription`, the slices as slice values. -/
abbrev Registry := List (String × Slice)

/-- The state of the program. -/
structure World where
  heap : Heap
  arrays : Arrays
  subscriptions : Registry
  goroutines : List (Ptr × Message)
  deriving DecidableEq, Repr

/-- The constructor `broker.NewBroker`. -/
def NewBroker : World :=
  { heap := [], arrays := [], subscriptions := [], goroutines := [] }

/-- The index expression `m[k]`; a missing key gives the nil slice. -/
def mapIndex : Registry → String → Slice
  | [], _ => Slice.nil
  | (k', v) :: rest, k => if k' = k then v else mapIndex rest k

/-- The assignment `m[k] = v`. -/
def mapAssign : Registry → String → Slice → Registry
  | [], k, v => [(k, v)]
  | (k', v') :: rest, k, v =>
    if k' = k then (k, v) :: rest else (k', v') :: mapAssign rest k v

/-- The builtin `delete(m, k)`. -/
def mapDelete (m : Registry) (k : String) : Registry :=
  m.filter fun e => e.1 != k

/-- The cells of the array at address `a`. -/
def cells (arrays : Arrays) (a : Nat) : List (Option Ptr) :=
  arrays.getD a []

/-- The elements `s[0]`, ..., `s[len-1]` as a loop over the slice reads them; a nil
element makes the call through it panic. -/
def elements (arrays : Arrays) (s : Slice) : Except Fault (List Ptr) :=
  ((cells arrays s.arr).take s.len).mapM fun c =>
    match c with
    | some p => .ok p
    | none => .error .nilDereference

/-- The capacity `append` gives the new array when the old one is full (the runtime
doubles small slices). -/
def growCap (cap : Nat) : Nat :=
  if cap = 0 then 1 else 2 * cap

/-- The call `append(s, x)`: when the capacity allows, `x` is written into the backing
array of `s` just behind its elements; otherwise the elements and `x` go to a new,
larger array. -/
def appendOne (arrays : Arrays) (s : Slice) (x : Ptr) : Arrays × Slice :=
  if s.len < s.cap then
    (arrays.set s.arr ((cells arrays s.arr).set s.len (some x)), { s with len := s.len + 1 })
  else
    (arrays ++ [(cells arrays s.arr).take s.len ++ [some x]
        ++ List.replicate (growCap s.cap - (s.len + 1)) none],
      { arr := arrays.length, len := s.len + 1, cap := growCap s.cap })

/-- The call `append(subs[:i], subs[i+1:]...)` for `i < len(subs)`: the result always
fits the capacity of `subs[:i]`, so the elements behind position `i` are moved one cell
to the front inside the backing array of `subs`; the cell that held the last element
keeps it. -/
def removeInPlace (arrays : Arrays) (subs : Slice) (i : Nat) : Arrays × Slice :=
  let cs := cells arrays subs.arr
  (arrays.set subs.arr
      (cs.take i ++ (cs.drop (i + 1)).take (subs.len - i - 1) ++ cs.drop (subs.len - 1)),
    { subs with len := subs.len - 1 })

/-- The method `Broker.Subscribe`. -/
def Broker.Subscribe (rnd : List (Fin 256)) (now : Nat) (t : Topic) (w : World) :
    World × Ptr :=
  let sub := NewSubscription rnd now t
  let p := w.heap.length
  let topicName := t.String
  let r := appendOne w.arrays (mapIndex w.subscriptions topicName) p
  ({ w with
      heap := w.heap ++ [sub],
      arrays := r.1,
      subscriptions := mapAssign w.subscriptions topicName r.2 }, p)

/-- The method `Broker.Unsubscribe`, one atomic step under the write lock; `order` is
the order in which the `range` over the map visits the keys. -/
def Broker.Unsubscribe (order : List String) (subscriptionID : String) (w : World) :
    Except Fault World :=
  match order with
  | [] => .ok w
  | topicName :: rest =>
    let subs := mapIndex w.subscriptions topicName
    match elements w.arrays subs with
    | .error e => .error e
    | .ok elems =>
      match findSub w.heap subscriptionID elems with
      | .error e => .error e
      | .ok none => Broker.Unsubscribe rest subscriptionID w
      | .ok (some (i, sub)) =>
        match closeAt sub w.heap with
        | .error e => .error e
        | .ok heap' =>
          let r := removeInPlace w.arrays subs i
          let m := mapAssign w.subscriptions topicName r.2
          let m' := if r.2.len = 0 then mapDelete m topicName else m
          .ok { w with heap := heap', arrays := r.1, subscriptions := m' }

/-- The first half of `Broker.Publish`, under the read lock: the slice value read from
the map. -/
def Broker.PublishSnapshot (msg : Message) (w : World) : Slice :=
  mapIndex w.subscriptions msg.Topic.String

/-- The second half of `Broker.Publish`, after the read lock is released: the loop over
the slice value `subs` read earlier, in the state the program is in by then. -/
def Broker.PublishLoop (subs : Slice) (msg : Message) (w : World) : Except Fault World :=
  if subs.len = 0 then
    .ok w
  else
    match elements w.arrays subs with
    | .error e => .error e
    | .ok elems => .ok { w with goroutines := w.goroutines ++ elems.map fun sub => (sub, msg) }

/-- The method `Broker.Publish` when nothing else runs between its two halves. -/
def Broker.Publish (msg : Message) (w : World) : Except Fault World :=
  Broker.PublishLoop (Broker.PublishSnapshot msg w) msg w

/-- The scheduler runs the pending goroutine number `i`. -/
def runGoroutine (i : Nat) (w : World) : Except Fault World :=
  match w.goroutines[i]? with
  | none => .ok w
  | some (sub, msg) =>
    match sendAt sub msg w.heap with
    | .error e => .error e
    | .ok heap' => .ok { w with heap := heap', goroutines := w.goroutines.eraseIdx i }

end Sliced

/-! ## definitions used to state the properties -/

/-- A name the specification calls valid: non-empty, and every character is an ASCII
letter, a digit, a dot or a hyphen. -/
def ValidName (name : String) : Prop :=
  name ≠ "" ∧ ∀ c ∈ name.toList, c.isAlpha = true ∨ c.isDigit = true ∨ c = '.' ∨ c = '-'

/-- The representation invariant of a subscription: the `closed` field says whether the
channel is closed, and the channel is the one `NewSubscription` made (capacity 200,
never holding more than that). -/
def Subscription.WF (s : Subscription) : Prop :=
  s.messageChannel.closed = s.closed ∧ s.messageChannel.cap = 200 ∧
    s.messageChannel.buf.length ≤ 200

instance (s : Subscription) : Decidable s.WF := by
  unfold Subscription.WF
  infer_instance

/-- The subscription `s` with `msg` appended at the back of its queue. -/
def Subscription.enqueue (s : Subscription) (msg : Message) : Subscription :=
  { s with messageChannel := { s.messageChannel with buf := s.messageChannel.buf ++ [msg] } }

/-- The subscription `s` once closed: both closed bits set, the queue as it was. -/
def Subscription.markClosed (s : Subscription) : Subscription :=
  { s with closed := true, messageChannel := { s.messageChannel with closed := true } }

/-- An open subscription with room in its queue takes the message. -/
def Subscription.accepts (s : Subscription) : Bool :=
  !s.closed && decide (s.messageChannel.buf.length < 200)

/-- A subscription for `users` whose queue is full. -/
def fullSubscription : Subscription :=
  { NewSubscription [1, 2, 3, 4, 5, 6, 7, 8] 0 ⟨"users"⟩ with
    messageChannel :=
      { buf := List.replicate 200 (NewMessage [0, 0, 0, 0, 0, 0, 0, 1] 1 ⟨"users"⟩ "x")
        cap := 200
        closed := false } }

/-- What can be done to one subscription: a `SendMessage`, a `Close`, or a read by
the consumer. -/
inductive SubOp where
  | send (msg : Message)
  | close
  | read
  deriving DecidableEq, Repr

/-- A subscription together with the record of what happened to it: the messages it
accepted, in the order of the `SendMessage` calls, and the messages the consumer read,
in the order of the reads. -/
structure Session where
  sub : Subscription
  accepted : List Message
  received : List Message
  deriving DecidableEq, Repr

/-- One operation on a subscription, recorded. -/
def sessionStep (op : SubOp) (t : Session) : Except Fault Session :=
  match op with
  | .send msg =>
    match t.sub.SendMessage msg with
    | .error e => .error e
    | .ok s' =>
      .ok { sub := s'
            accepted := if t.sub.accepts then t.accepted ++ [msg] else t.accepted
            received := t.received }
  | .close =>
    match t.sub.Close with
    | .error e => .error e
    | .ok s' => .ok { t with sub := s' }
  | .read =>
    .ok { sub := (t.sub.receive).2
          accepted := t.accepted
          received := t.received ++ (t.sub.receive).1.toList }

/-- A sequence of operations on a subscription, recorded. -/
def sessionRun : List SubOp → Session → Except Fault Session
  | [], t => .ok t
  | op :: ops, t =>
    match sessionStep op t with
    | .error e => .error e
    | .ok t' => sessionRun ops t'

/-- Every allocated subscription satisfies its representation invariant. -/
def HeapOK (heap : Heap) : Prop :=
  ∀ s ∈ heap, s.WF

instance (heap : Heap) : Decidable (HeapOK heap) := by
  unfold HeapOK
  infer_instance

/-- Every pointer stored in the registry points into the heap (none is nil). -/
def PtrsOK (w : World) : Prop :=
  ∀ e ∈ w.broker.subscriptions, ∀ p ∈ e.2, p < w.heap.length

instance (w : World) : Decidable (PtrsOK w) := by
  unfold PtrsOK
  infer_instance

/-- The topic `users` of the tests. -/
def usersTopic : Topic := ⟨"users"⟩

/-- The topic `orders` of the tests. -/
def ordersTopic : Topic := ⟨"orders"⟩

/-- A broker with one subscriber on `users`, as in `TestBrokerClose`. -/
def oneSubscriber : World :=
  (Broker.Subscribe [0, 0, 0, 0, 0, 0, 0, 1] 10 usersTopic NewBroker).1

/-- A broker with three subscribers on `users` and one on `orders`. -/
def fourSubscribers : World :=
  (Broker.Subscribe [0, 0, 0, 0, 0, 0, 0, 4] 13 ordersTopic
    (Broker.Subscribe [0, 0, 0, 0, 0, 0, 0, 3] 12 usersTopic
      (Broker.Subscribe [0, 0, 0, 0, 0, 0, 0, 2] 11 usersTopic oneSubscriber).1).1).1

/-- A message for `users` with the payload of the tests. -/
def testMessage : Message :=
  NewMessage [0, 0, 0, 0, 0, 0, 1, 0] 20 usersTopic "test"

/-- A message for `orders`. -/
def orderMessage : Message :=
  NewMessage [0, 0, 0, 0, 0, 0, 2, 0] 21 ordersTopic "order data"

/-- The registry after `Unsubscribe` has removed the element at position `i` of the
slice of `k`. -/
def removeAt (m : Registry) (k : String) (i : Nat) : Registry :=
  let subs := mapIndex m k
  let subs' := subs.take i ++ subs.drop (i + 1)
  let m' := mapAssign m k subs'
  if subs'.length = 0 then mapDelete m' k else m'

/-- One method call on a subscription, or one read from its channel. -/
inductive SubStep : Subscription → Subscription → Prop where
  | send (s s' : Subscription) (msg : Message) : s.SendMessage msg = .ok s' → SubStep s s'
  | close (s s' : Subscription) : s.Close = .ok s' → SubStep s s'
  | read (s : Subscription) : SubStep s (s.receive).2

/-- The ids of the registered subscriptions are pairwise distinct. -/
def DistinctIDs (w : World) : Prop :=
  ∀ e ∈ w.broker.subscriptions, ∀ p ∈ e.2, ∀ e' ∈ w.broker.subscriptions, ∀ q ∈ e'.2,
    (w.heap[p]?).map Subscription.ID = (w.heap[q]?).map Subscription.ID → p = q

instance (w : World) : Decidable (DistinctIDs w) := by
  unfold DistinctIDs
  infer_instance

/-- The invariant of the reachable states: the heap is well formed; every slice of the
registry holds valid pointers, to subscriptions for the topic of its key, without
repetition; every pending goroutine carries a message for the topic of its target; and
every queued message is on the topic of the subscription holding it. -/
structure Inv (w : World) : Prop where
  heap : HeapOK w.heap
  reg : ∀ k, ∀ p ∈ mapIndex w.broker.subscriptions k,
    ∃ s, w.heap[p]? = some s ∧ s.Topic.String = k
  nodup : ∀ k, (mapIndex w.broker.subscriptions k).Nodup
  tasks : ∀ t ∈ w.goroutines, ∃ s, w.heap[t.1]? = some s ∧ s.Topic.String = t.2.Topic.String
  queues : ∀ s ∈ w.heap, ∀ m ∈ s.messageChannel.buf, m.Topic.String = s.Topic.String

/-- No registered subscription has the id. -/
def NoSuchID (w : World) (id : String) : Prop :=
  ∀ e ∈ w.broker.subscriptions, ∀ p ∈ e.2, (w.heap[p]?).map Subscription.ID ≠ some id

instance (w : World) (id : String) : Decidable (NoSuchID w id) := by
  unfold NoSuchID
  infer_instance

/-- An open subscription for `users` holding two messages. -/
def twoQueued : Subscription :=
  { NewSubscription [0, 0, 0, 0, 0, 0, 0, 1] 10 usersTopic with
    messageChannel :=
      { buf := [NewMessage [0, 0, 0, 0, 0, 0, 1, 1] 21 usersTopic "first",
                NewMessage [0, 0, 0, 0, 0, 0, 1, 2] 22 usersTopic "second"]
        cap := 200
        closed := false } }

/-- The registry is a map (no key occurs twice) in which no key has an empty slice. -/
def KeysOK (m : Registry) : Prop :=
  (mapKeys m).Nodup ∧ ∀ e ∈ m, e.2 ≠ []

instance (m : Registry) : Decidable (KeysOK m) := by
  unfold KeysOK
  infer_instance

/-- The broker with four subscribers after the only subscriber on `orders` has been
unsubscribed. -/
def ordersUnsubscribed : World :=
  { heap := fourSubscribers.heap.set 3
      (NewSubscription [0, 0, 0, 0, 0, 0, 0, 4] 13 ordersTopic).markClosed
    broker := { subscriptions := [("users", [0, 1, 2])] }
    goroutines := [] }

/-- The messages `msgs` published one after the other. -/
def publishAll (msgs : List Message) (w : World) : World :=
  msgs.foldl (fun w msg => Broker.Publish msg w) w

/-- The subscription `s` with `msgs` appended at the back of its queue. -/
def Subscription.enqueueAll (s : Subscription) (msgs : List Message) : Subscription :=
  { s with messageChannel := { s.messageChannel with buf := s.messageChannel.buf ++ msgs } }

/-- Three different messages for `users`. -/
def threeMessages : List Message :=
  [NewMessage [0, 0, 0, 0, 0, 0, 1, 1] 21 usersTopic "a",
   NewMessage [0, 0, 0, 0, 0, 0, 1, 2] 22 usersTopic "b",
   NewMessage [0, 0, 0, 0, 0, 0, 1, 3] 23 usersTopic "c"]

/-- Two subscribers on `users`, with the slices explicit: the slice of `users` has
length 2 and capacity 2 and lives in the second array allocated. -/
def Sliced.twoOnUsers : Sliced.World :=
  (Sliced.Broker.Subscribe [0, 0, 0, 0, 0, 0, 0, 2] 11 usersTopic
    (Sliced.Broker.Subscribe [0, 0, 0, 0, 0, 0, 0, 1] 10 usersTopic Sliced.NewBroker).1).1

/-- Every subscription the registry points to is allocated and open. -/
def OpenOK (w : World) : Prop :=
  ∀ k, ∀ p ∈ mapIndex w.broker.subscriptions k, ∃ s, w.heap[p]? = some s ∧ s.closed = false

/-! ## lemmas -/

theorem topicClass_iff (c : Char) :
    topicClass c = true ↔ (c.isAlpha = true ∨ c.isDigit = true ∨ c = '.' ∨ c = '-') := by
  have h1 : c.val.toBitVec.toNat = c.toNat := rfl
  have k1 : (UInt32.toBitVec 65).toNat = 65 := rfl
  have k2 : (UInt32.toBitVec 90).toNat = 90 := rfl
  have k3 : (UInt32.toBitVec 97).toNat = 97 := rfl
  have k4 : (UInt32.toBitVec 122).toNat = 122 := rfl
  have k5 : (UInt32.toBitVec 48).toNat = 48 := rfl
  have k6 : (UInt32.toBitVec 57).toNat = 57 := rfl
  have e1 : ('a' : Char).toNat = 97 := rfl
  have e2 : ('z' : Char).toNat = 122 := rfl
  have e3 : ('A' : Char).toNat = 65 := rfl
  have e4 : ('Z' : Char).toNat = 90 := rfl
  have e5 : ('0' : Char).toNat = 48 := rfl
  have e6 : ('9' : Char).toNat = 57 := rfl
  simp only [topicClass, inRange, Char.isAlpha, Char.isUpper, Char.isLower, Char.isDigit,
    Bool.or_eq_true, Bool.and_eq_true, decide_eq_true_eq, beq_iff_eq, ge_iff_le,
    UInt32.le_def, BitVec.le_def, h1, k1, k2, k3, k4, k5, k6, e1, e2, e3, e4, e5, e6]
  tauto

theorem matchClassPlus_iff (cs : List Char) :
    matchClassPlus cs = true ↔ cs ≠ [] ∧ ∀ c ∈ cs, topicClass c = true := by
  induction cs with
  | nil => simp [matchClassPlus]
  | cons c cs ih =>
    cases cs with
    | nil => simp [matchClassPlus]
    | cons d ds =>
      simp only [matchClassPlus, List.isEmpty_cons, Bool.false_or, Bool.and_eq_true] at ih ⊢
      rw [ih]
      simp

theorem isValidTopicName_iff (name : String) :
    isValidTopicName name = true ↔ ValidName name := by
  unfold isValidTopicName ValidName
  rw [matchClassPlus_iff]
  have hne : name.toList ≠ [] ↔ name ≠ "" := by
    constructor
    · intro h e; exact h (by rw [e]; rfl)
    · intro h e; exact h (String.ext e)
  rw [hne]
  constructor
  · rintro ⟨h1, h2⟩; exact ⟨h1, fun c hc => (topicClass_iff c).1 (h2 c hc)⟩
  · rintro ⟨h1, h2⟩; exact ⟨h1, fun c hc => (topicClass_iff c).2 (h2 c hc)⟩

theorem NewSubscription_WF (rnd : List (Fin 256)) (now : Nat) (t : Topic) :
    (NewSubscription rnd now t).WF := by
  simp [Subscription.WF, NewSubscription, Chan.make]

theorem SendMessage_closed (s : Subscription) (msg : Message) (h : s.closed = true) :
    s.SendMessage msg = .ok s := by
  simp [Subscription.SendMessage, h]

theorem SendMessage_full (s : Subscription) (msg : Message) (hwf : s.WF)
    (hopen : s.closed = false) (hfull : s.messageChannel.buf.length = 200) :
    s.SendMessage msg = .ok s := by
  obtain ⟨h1, h2, _⟩ := hwf
  rw [hopen] at h1
  cases s with
  | mk id topic ch createdAt closed =>
    cases ch
    simp_all [Subscription.SendMessage, Chan.trySend]

theorem SendMessage_room (s : Subscription) (msg : Message) (hwf : s.WF)
    (hopen : s.closed = false) (hroom : s.messageChannel.buf.length < 200) :
    s.SendMessage msg = .ok (s.enqueue msg) := by
  obtain ⟨h1, h2, _⟩ := hwf
  rw [hopen] at h1
  cases s with
  | mk id topic ch createdAt closed =>
    cases ch
    simp_all [Subscription.SendMessage, Chan.trySend, Subscription.enqueue]

/-- On a well-formed subscription `SendMessage` never panics: it enqueues when the
subscription accepts and does nothing otherwise. -/
theorem SendMessage_eq (s : Subscription) (msg : Message) (hwf : s.WF) :
    s.SendMessage msg = .ok (if s.accepts then s.enqueue msg else s) := by
  by_cases hc : s.closed = true
  · simp [SendMessage_closed s msg hc, Subscription.accepts, hc]
  · have hopen : s.closed = false := by simpa using hc
    by_cases hroom : s.messageChannel.buf.length < 200
    · simp [SendMessage_room s msg hwf hopen hroom, Subscription.accepts, hopen, hroom]
    · have hfull : s.messageChannel.buf.length = 200 := by have := hwf.2.2; omega
      simp [SendMessage_full s msg hwf hopen hfull, Subscription.accepts, hopen, hfull]

theorem Close_eq (s : Subscription) (hwf : s.WF) : s.Close = .ok s.markClosed := by
  obtain ⟨h1, _, _⟩ := hwf
  by_cases hc : s.closed = true
  · rw [hc] at h1
    have : s.markClosed = s := by
      cases s with
      | mk id topic ch createdAt closed =>
        cases ch
        simp_all [Subscription.markClosed]
    simp [Subscription.Close, hc, this]
  · have hopen : s.closed = false := by simpa using hc
    rw [hopen] at h1
    simp [Subscription.Close, Chan.close, hopen, h1, Subscription.markClosed]

theorem enqueue_WF (s : Subscription) (msg : Message) (hwf : s.WF)
    (hroom : s.messageChannel.buf.length < 200) : (s.enqueue msg).WF := by
  obtain ⟨h1, h2, _⟩ := hwf
  refine ⟨h1, h2, ?_⟩
  simp [Subscription.enqueue]
  omega

theorem markClosed_WF (s : Subscription) (hwf : s.WF) : s.markClosed.WF := by
  obtain ⟨_, h2, h3⟩ := hwf
  exact ⟨rfl, h2, h3⟩

theorem receive_WF (s : Subscription) (hwf : s.WF) : (s.receive).2.WF := by
  obtain ⟨h1, h2, h3⟩ := hwf
  unfold Subscription.receive Subscription.MessageChannel Chan.recv
  cases hb : s.messageChannel.buf with
  | nil =>
    by_cases hc : s.messageChannel.closed = true
    · simp [hc]; exact ⟨h1, h2, h3⟩
    · simp [hc]; exact ⟨h1, h2, h3⟩
  | cons m rest =>
    simp only
    refine ⟨h1, h2, ?_⟩
    rw [hb] at h3
    simp at h3 ⊢
    omega

theorem receive_cons (s : Subscription) (msg : Message) (rest : List Message)
    (h : s.messageChannel.buf = msg :: rest) :
    s.receive = (some msg, { s with messageChannel := { s.messageChannel with buf := rest } }) := by
  simp [Subscription.receive, Subscription.MessageChannel, Chan.recv, h]

theorem receive_nil (s : Subscription) (h : s.messageChannel.buf = []) :
    s.receive = (none, s) := by
  unfold Subscription.receive Subscription.MessageChannel Chan.recv
  rw [h]
  by_cases hc : s.messageChannel.closed = true <;> simp [hc]

/-- What a read returns followed by what stays queued is the queue before the read. -/
theorem receive_queue (s : Subscription) :
    (s.receive).1.toList ++ (s.receive).2.messageChannel.buf = s.messageChannel.buf := by
  cases hb : s.messageChannel.buf with
  | nil => simp [receive_nil s hb, hb]
  | cons m rest => simp [receive_cons s m rest hb]

theorem sessionStep_fifo (op : SubOp) (t : Session) (q : List Message) (hwf : t.sub.WF)
    (hq : t.received ++ t.sub.messageChannel.buf = q ++ t.accepted) :
    ∃ t', sessionStep op t = .ok t' ∧ t'.sub.WF ∧
      t'.received ++ t'.sub.messageChannel.buf = q ++ t'.accepted := by
  cases op with
  | send msg =>
    simp only [sessionStep, SendMessage_eq t.sub msg hwf]
    by_cases ha : t.sub.accepts = true
    · have hroom : t.sub.messageChannel.buf.length < 200 := by
        simp [Subscription.accepts] at ha
        exact ha.2
      refine ⟨_, rfl, ?_, ?_⟩
      · simp only [ha, if_true]
        exact enqueue_WF t.sub msg hwf hroom
      · simp only [ha, if_true, Subscription.enqueue]
        rw [← List.append_assoc, hq, List.append_assoc]
    · refine ⟨_, rfl, ?_, ?_⟩
      · simp only [ha]
        exact hwf
      · simp only [ha]
        exact hq
  | close =>
    simp only [sessionStep, Close_eq t.sub hwf]
    exact ⟨_, rfl, markClosed_WF t.sub hwf, hq⟩
  | read =>
    refine ⟨_, rfl, receive_WF t.sub hwf, ?_⟩
    simp only
    rw [List.append_assoc, receive_queue, hq]

theorem sessionRun_fifo (ops : List SubOp) (t : Session) (q : List Message) (hwf : t.sub.WF)
    (hq : t.received ++ t.sub.messageChannel.buf = q ++ t.accepted) :
    ∃ t', sessionRun ops t = .ok t' ∧ t'.sub.WF ∧
      t'.received ++ t'.sub.messageChannel.buf = q ++ t'.accepted := by
  induction ops generalizing t with
  | nil => exact ⟨t, rfl, hwf, hq⟩
  | cons op ops ih =>
    obtain ⟨t1, h1, hwf1, hq1⟩ := sessionStep_fifo op t q hwf hq
    obtain ⟨t2, h2, hwf2, hq2⟩ := ih t1 hwf1 hq1
    exact ⟨t2, by simp [sessionRun, h1, h2], hwf2, hq2⟩

theorem mapIndex_cons (k0 : String) (v0 : List Ptr) (rest : Registry) (k : String) :
    mapIndex ((k0, v0) :: rest) k = if k0 = k then v0 else mapIndex rest k := rfl

theorem mapAssign_cons (k0 : String) (v0 : List Ptr) (rest : Registry) (k : String)
    (v : List Ptr) :
    mapAssign ((k0, v0) :: rest) k v =
      if k0 = k then (k, v) :: rest else (k0, v0) :: mapAssign rest k v := rfl

theorem mapDelete_cons (k0 : String) (v0 : List Ptr) (rest : Registry) (k : String) :
    mapDelete ((k0, v0) :: rest) k =
      if k0 = k then mapDelete rest k else (k0, v0) :: mapDelete rest k := by
  by_cases h : k0 = k <;> simp [mapDelete, List.filter_cons, h]

theorem mapIndex_mapAssign (m : Registry) (k : String) (v : List Ptr) (k' : String) :
    mapIndex (mapAssign m k v) k' = if k = k' then v else mapIndex m k' := by
  induction m with
  | nil => simp [mapAssign, mapIndex]
  | cons e rest ih =>
    obtain ⟨k0, v0⟩ := e
    rw [mapAssign_cons]
    by_cases h0 : k0 = k
    · rw [if_pos h0, mapIndex_cons, mapIndex_cons, h0]
      by_cases h1 : k = k'
      · rw [if_pos h1, if_pos h1]
      · rw [if_neg h1, if_neg h1, if_neg h1]
    · rw [if_neg h0, mapIndex_cons, mapIndex_cons, ih]
      by_cases h2 : k0 = k'
      · rw [if_pos h2, if_pos h2, if_neg (fun h => h0 (h2.trans h.symm))]
      · rw [if_neg h2, if_neg h2]

theorem mapIndex_mapDelete (m : Registry) (k k' : String) :
    mapIndex (mapDelete m k) k' = if k = k' then [] else mapIndex m k' := by
  induction m with
  | nil => simp [mapDelete, mapIndex]
  | cons e rest ih =>
    obtain ⟨k0, v0⟩ := e
    rw [mapDelete_cons]
    by_cases h0 : k0 = k
    · rw [if_pos h0, ih, mapIndex_cons, h0]
      by_cases h1 : k = k'
      · simp [h1]
      · simp [h1]
    · rw [if_neg h0, mapIndex_cons, mapIndex_cons, ih]
      by_cases h2 : k0 = k'
      · rw [if_pos h2, if_pos h2, if_neg (fun h => h0 (h2.trans h.symm))]
      · rw [if_neg h2, if_neg h2]

theorem mapHasKey_cons (k0 : String) (v0 : List Ptr) (rest : Registry) (k : String) :
    mapHasKey ((k0, v0) :: rest) k = (decide (k0 = k) || mapHasKey rest k) := by
  by_cases h : k0 = k <;> simp [mapHasKey, h]

theorem mapHasKey_iff (m : Registry) (k : String) :
    mapHasKey m k = true ↔ k ∈ mapKeys m := by
  induction m with
  | nil => simp [mapHasKey, mapKeys]
  | cons e rest ih =>
    obtain ⟨k0, v0⟩ := e
    rw [mapHasKey_cons]
    simp only [mapKeys, List.map_cons, List.mem_cons, Bool.or_eq_true, decide_eq_true_eq] at ih ⊢
    rw [ih]
    constructor
    · rintro (h | h)
      · exact Or.inl h.symm
      · exact Or.inr h
    · rintro (h | h)
      · exact Or.inl h.symm
      · exact Or.inr h

theorem mapHasKey_mapAssign (m : Registry) (k : String) (v : List Ptr) (k' : String) :
    mapHasKey (mapAssign m k v) k' = (decide (k = k') || mapHasKey m k') := by
  induction m with
  | nil =>
    by_cases h : k = k' <;> simp [mapAssign, mapHasKey, h]
  | cons e rest ih =>
    obtain ⟨k0, v0⟩ := e
    rw [mapAssign_cons]
    by_cases h0 : k0 = k
    · rw [if_pos h0, mapHasKey_cons, mapHasKey_cons, h0]
      by_cases h1 : k = k' <;> simp [h1]
    · rw [if_neg h0, mapHasKey_cons, mapHasKey_cons, ih]
      by_cases h1 : k = k' <;> by_cases h2 : k0 = k' <;> simp [h1, h2]

theorem mapHasKey_mapDelete (m : Registry) (k k' : String) :
    mapHasKey (mapDelete m k) k' = (!decide (k = k') && mapHasKey m k') := by
  induction m with
  | nil => simp [mapDelete, mapHasKey]
  | cons e rest ih =>
    obtain ⟨k0, v0⟩ := e
    rw [mapDelete_cons]
    by_cases h0 : k0 = k
    · rw [if_pos h0, ih, mapHasKey_cons, h0]
      by_cases h1 : k = k' <;> simp [h1]
    · rw [if_neg h0, mapHasKey_cons, mapHasKey_cons, ih]
      by_cases h1 : k = k'
      · have h2 : ¬ k0 = k' := fun h => h0 (h.trans h1.symm)
        simp [h1, h2]
      · simp [h1]

theorem mapIndex_eq_nil_of_not_hasKey (m : Registry) (k : String)
    (h : mapHasKey m k = false) : mapIndex m k = [] := by
  induction m with
  | nil => rfl
  | cons e rest ih =>
    obtain ⟨k0, v0⟩ := e
    rw [mapHasKey_cons] at h
    simp only [Bool.or_eq_false_iff, decide_eq_false_iff_not] at h
    rw [mapIndex_cons, if_neg h.1]
    exact ih h.2

theorem deref_ok_iff (heap : Heap) (p : Ptr) (s : Subscription) :
    deref heap p = .ok s ↔ heap[p]? = some s := by
  unfold deref
  cases h : heap[p]? <;> simp

theorem deref_of_lt (heap : Heap) (p : Ptr) (h : p < heap.length) :
    deref heap p = .ok heap[p] := by
  simp [deref, List.getElem?_eq_getElem h]

theorem rangeChan_closed (ch : Chan) (h : ch.closed = true) :
    rangeChan (ch.buf.length + 1) ch = some ch.buf := by
  obtain ⟨buf, cap, closed⟩ := ch
  simp only at h
  subst h
  induction buf with
  | nil => simp [rangeChan, Chan.recv]
  | cons m rest ih =>
    simp only [List.length_cons]
    rw [rangeChan]
    simp only [Chan.recv]
    rw [ih]
    rfl

theorem rangeChan_open (fuel : Nat) (ch : Chan) (h : ch.closed = false) :
    rangeChan fuel ch = none := by
  obtain ⟨buf, cap, closed⟩ := ch
  simp only at h
  subst h
  induction fuel generalizing buf with
  | zero => rfl
  | succ n ih =>
    cases buf with
    | nil => simp [rangeChan, Chan.recv]
    | cons m rest =>
      rw [rangeChan]
      simp only [Chan.recv]
      rw [ih]
      rfl

theorem mem_mapIndex (m : Registry) (k : String) (p : Ptr) (h : p ∈ mapIndex m k) :
    ∃ e ∈ m, e.1 = k ∧ p ∈ e.2 := by
  induction m with
  | nil => simp [mapIndex] at h
  | cons e rest ih =>
    obtain ⟨k0, v0⟩ := e
    rw [mapIndex_cons] at h
    by_cases h0 : k0 = k
    · rw [if_pos h0] at h
      exact ⟨(k0, v0), List.mem_cons_self _ _, h0, h⟩
    · rw [if_neg h0] at h
      obtain ⟨e, he, h1, h2⟩ := ih h
      exact ⟨e, List.mem_cons_of_mem _ he, h1, h2⟩

theorem mapHasKey_of_mem_mapIndex (m : Registry) (k : String) (p : Ptr)
    (h : p ∈ mapIndex m k) : mapHasKey m k = true := by
  obtain ⟨e, he, h1, _⟩ := mem_mapIndex m k p h
  rw [mapHasKey_iff]
  exact List.mem_map.2 ⟨e, he, h1⟩

theorem PtrsOK_index (w : World) (h : PtrsOK w) (k : String) :
    ∀ p ∈ mapIndex w.broker.subscriptions k, p < w.heap.length := by
  intro p hp
  obtain ⟨e, he, _, h2⟩ := mem_mapIndex _ k p hp
  exact h e he p h2

theorem markClosed_idem (s : Subscription) : s.markClosed.markClosed = s.markClosed := rfl

/-- The call `sub.Close()` through a valid pointer into a well-formed heap. -/
theorem closeAt_eq (p : Ptr) (heap : Heap) (hheap : HeapOK heap) (hp : p < heap.length) :
    closeAt p heap = .ok (heap.set p heap[p].markClosed) := by
  have hwf : heap[p].WF := hheap _ (List.getElem_mem hp)
  simp [closeAt, deref_of_lt heap p hp, Close_eq _ hwf]

theorem HeapOK_set (heap : Heap) (p : Ptr) (s : Subscription) (hheap : HeapOK heap)
    (hs : s.WF) : HeapOK (heap.set p s) := by
  intro s' hs'
  rcases List.mem_or_eq_of_mem_set hs' with h | h
  · exact hheap s' h
  · rw [h]; exact hs

theorem closeEach_spec (ps : List Ptr) (heap : Heap) (hheap : HeapOK heap)
    (hps : ∀ p ∈ ps, p < heap.length) :
    ∃ heap', closeEach ps heap = .ok heap' ∧ heap'.length = heap.length ∧ HeapOK heap' ∧
      ∀ q, heap'[q]? =
        if q ∈ ps then (heap[q]?).map Subscription.markClosed else heap[q]? := by
  induction ps generalizing heap with
  | nil => exact ⟨heap, rfl, rfl, hheap, by simp⟩
  | cons p ps ih =>
    have hp : p < heap.length := hps p (List.mem_cons_self _ _)
    have hwf : heap[p].WF := hheap _ (List.getElem_mem hp)
    have h1 := closeAt_eq p heap hheap hp
    have hheap1 : HeapOK (heap.set p heap[p].markClosed) :=
      HeapOK_set heap p _ hheap (markClosed_WF _ hwf)
    obtain ⟨heap', h2, h3, h4, h5⟩ := ih (heap.set p heap[p].markClosed) hheap1
      (by intro q hq; rw [List.length_set]; exact hps q (List.mem_cons_of_mem _ hq))
    refine ⟨heap', by simp [closeEach, h1, h2], by rw [h3, List.length_set], h4, ?_⟩
    intro q
    rw [h5 q]
    by_cases hqp : q = p
    · subst hqp
      simp [List.getElem?_set, hp, List.getElem?_eq_getElem hp, markClosed_idem]
    · have hne : p ≠ q := fun h => hqp h.symm
      simp [List.getElem?_set, hne, hqp]

theorem closeTopics_spec (m : Registry) (order : List String) (heap : Heap)
    (hheap : HeapOK heap)
    (hps : ∀ k, ∀ p ∈ mapIndex m k, p < heap.length) :
    ∃ heap', closeTopics m order heap = .ok heap' ∧ heap'.length = heap.length ∧
      HeapOK heap' ∧
      ∀ q, heap'[q]? =
        if ∃ k ∈ order, q ∈ mapIndex m k then (heap[q]?).map Subscription.markClosed
        else heap[q]? := by
  induction order generalizing heap with
  | nil => exact ⟨heap, rfl, rfl, hheap, by simp⟩
  | cons k ks ih =>
    obtain ⟨heap1, h1, h2, h3, h4⟩ := closeEach_spec (mapIndex m k) heap hheap (hps k)
    obtain ⟨heap', g1, g2, g3, g4⟩ := ih heap1 h3 (by intro k' p hp; rw [h2]; exact hps k' p hp)
    refine ⟨heap', by simp [closeTopics, h1, g1], by rw [g2, h2], g3, ?_⟩
    intro q
    rw [g4 q, h4 q]
    by_cases ha : q ∈ mapIndex m k
    · have hex : ∃ k' ∈ k :: ks, q ∈ mapIndex m k' := ⟨k, List.mem_cons_self _ _, ha⟩
      rw [if_pos ha, if_pos hex]
      by_cases hb : ∃ k' ∈ ks, q ∈ mapIndex m k'
      · rw [if_pos hb]
        cases heap[q]? <;> simp [markClosed_idem]
      · rw [if_neg hb]
    · rw [if_neg ha]
      by_cases hb : ∃ k' ∈ ks, q ∈ mapIndex m k'
      · obtain ⟨k', hk', hq⟩ := hb
        rw [if_pos ⟨k', hk', hq⟩, if_pos ⟨k', List.mem_cons_of_mem _ hk', hq⟩]
      · rw [if_neg hb, if_neg]
        rintro ⟨k', hk', hq⟩
        rcases List.mem_cons.1 hk' with h | h
        · exact ha (h ▸ hq)
        · exact hb ⟨k', h, hq⟩

theorem findSub_cons (heap : Heap) (id : String) (p : Ptr) (ps : List Ptr) (s : Subscription)
    (h : heap[p]? = some s) :
    findSub heap id (p :: ps) =
      if s.ID = id then .ok (some (0, p))
      else
        match findSub heap id ps with
        | .error e => .error e
        | .ok none => .ok none
        | .ok (some (i, q)) => .ok (some (i + 1, q)) := by
  simp [findSub, (deref_ok_iff heap p s).2 h]

/-- A successful scan returns the first position holding a subscription with the id. -/
theorem findSub_some (heap : Heap) (id : String) (subs : List Ptr) (i : Nat) (p : Ptr)
    (h : findSub heap id subs = .ok (some (i, p))) :
    subs[i]? = some p ∧ (∃ s, heap[p]? = some s ∧ s.id = id) ∧
      ∀ j, j < i → ∃ q s, subs[j]? = some q ∧ heap[q]? = some s ∧ s.id ≠ id := by
  induction subs generalizing i with
  | nil => simp [findSub] at h
  | cons q qs ih =>
    cases hq : heap[q]? with
    | none => simp [findSub, deref, hq] at h
    | some s =>
      rw [findSub_cons heap id q qs s hq] at h
      by_cases hid : s.ID = id
      · rw [if_pos hid] at h
        simp only [Except.ok.injEq, Option.some.injEq, Prod.mk.injEq] at h
        obtain ⟨rfl, rfl⟩ := h
        exact ⟨by simp, ⟨s, hq, hid⟩, by intro j hj; omega⟩
      · rw [if_neg hid] at h
        cases hr : findSub heap id qs with
        | error e => simp [hr] at h
        | ok r =>
          cases r with
          | none => simp [hr] at h
          | some ip =>
            obtain ⟨i0, p0⟩ := ip
            simp only [hr, Except.ok.injEq, Option.some.injEq, Prod.mk.injEq] at h
            obtain ⟨rfl, rfl⟩ := h
            obtain ⟨h1, h2, h3⟩ := ih i0 hr
            refine ⟨by simpa using h1, h2, ?_⟩
            intro j hj
            cases j with
            | zero => exact ⟨q, s, by simp, hq, hid⟩
            | succ j =>
              obtain ⟨q', s', g1, g2, g3⟩ := h3 j (by omega)
              exact ⟨q', s', by simpa using g1, g2, g3⟩

/-- A scan that finds nothing has looked at every element. -/
theorem findSub_none (heap : Heap) (id : String) (subs : List Ptr)
    (h : findSub heap id subs = .ok none) :
    ∀ p ∈ subs, ∃ s, heap[p]? = some s ∧ s.id ≠ id := by
  induction subs with
  | nil => simp
  | cons q qs ih =>
    cases hq : heap[q]? with
    | none => simp [findSub, deref, hq] at h
    | some s =>
      rw [findSub_cons heap id q qs s hq] at h
      by_cases hid : s.ID = id
      · rw [if_pos hid] at h
        simp at h
      · rw [if_neg hid] at h
        cases hr : findSub heap id qs with
        | error e => simp [hr] at h
        | ok r =>
          cases r with
          | some ip => simp [hr] at h
          | none =>
            intro p hp
            rcases List.mem_cons.1 hp with rfl | hp
            · exact ⟨s, hq, hid⟩
            · exact ih hr p hp

/-- The scan does not panic when every pointer of the slice is valid. -/
theorem findSub_total (heap : Heap) (id : String) (subs : List Ptr)
    (hps : ∀ p ∈ subs, p < heap.length) : ∃ r, findSub heap id subs = .ok r := by
  induction subs with
  | nil => exact ⟨none, rfl⟩
  | cons q qs ih =>
    have hq : q < heap.length := hps q (List.mem_cons_self _ _)
    obtain ⟨r, hr⟩ := ih (fun p hp => hps p (List.mem_cons_of_mem _ hp))
    rw [findSub_cons heap id q qs heap[q] (List.getElem?_eq_getElem hq)]
    by_cases hid : heap[q].ID = id
    · exact ⟨_, by rw [if_pos hid]⟩
    · rw [if_neg hid, hr]
      cases r with
      | none => exact ⟨_, rfl⟩
      | some ip => exact ⟨_, rfl⟩

theorem take_append_drop_succ (l : List Ptr) (i : Nat) :
    l.take i ++ l.drop (i + 1) = l.eraseIdx i := by
  induction l generalizing i with
  | nil => simp
  | cons a l ih =>
    cases i with
    | zero => simp
    | succ i => simp [ih]

theorem mapIndex_removeAt (m : Registry) (k : String) (i : Nat) (k' : String) :
    mapIndex (removeAt m k i) k' =
      if k = k' then (mapIndex m k).eraseIdx i else mapIndex m k' := by
  unfold removeAt
  simp only [take_append_drop_succ]
  by_cases he : ((mapIndex m k).eraseIdx i).length = 0
  · rw [if_pos he, mapIndex_mapDelete, mapIndex_mapAssign]
    by_cases hk : k = k'
    · rw [if_pos hk, if_pos hk]
      exact (List.length_eq_zero.1 he).symm
    · rw [if_neg hk, if_neg hk]
  · rw [if_neg he, mapIndex_mapAssign]

theorem mapHasKey_removeAt (m : Registry) (k : String) (i : Nat) (k' : String) :
    mapHasKey (removeAt m k i) k' =
      if k = k' then decide ((mapIndex m k).eraseIdx i ≠ []) else mapHasKey m k' := by
  unfold removeAt
  simp only [take_append_drop_succ]
  by_cases he : ((mapIndex m k).eraseIdx i).length = 0
  · rw [if_pos he, mapHasKey_mapDelete, mapHasKey_mapAssign]
    by_cases hk : k = k'
    · have hd : decide ((mapIndex m k).eraseIdx i ≠ []) = false :=
        decide_eq_false (fun h => h (List.length_eq_zero.1 he))
      rw [if_pos hk, hd, decide_eq_true hk]
      rfl
    · rw [if_neg hk, decide_eq_false hk]
      rfl
  · rw [if_neg he, mapHasKey_mapAssign]
    by_cases hk : k = k'
    · have hd : decide ((mapIndex m k).eraseIdx i ≠ []) = true :=
        decide_eq_true (fun h => he (by rw [h]; rfl))
      rw [if_pos hk, hd, decide_eq_true hk]
      rfl
    · rw [if_neg hk, decide_eq_false hk]
      rfl

/-- What a successful `Unsubscribe` has done: nothing when no scanned slice holds the id,
and otherwise it has closed the first match of the first slice holding one and removed it
from that slice. -/
theorem Unsubscribe_cases (order : List String) (id : String) (w w' : World)
    (h : Broker.Unsubscribe order id w = .ok w') :
    (w' = w ∧ ∀ k ∈ order, findSub w.heap id (mapIndex w.broker.subscriptions k) = .ok none) ∨
    ∃ k i p, k ∈ order ∧
      findSub w.heap id (mapIndex w.broker.subscriptions k) = .ok (some (i, p)) ∧
      closeAt p w.heap = .ok w'.heap ∧ w'.goroutines = w.goroutines ∧
      w'.broker.subscriptions = removeAt w.broker.subscriptions k i := by
  induction order with
  | nil =>
    simp only [Broker.Unsubscribe, Except.ok.injEq] at h
    exact Or.inl ⟨h.symm, by simp⟩
  | cons k ks ih =>
    rw [Broker.Unsubscribe] at h
    cases hf : findSub w.heap id (mapIndex w.broker.subscriptions k) with
    | error e => simp [hf] at h
    | ok r =>
      cases r with
      | none =>
        simp only [hf] at h
        rcases ih h with ⟨h1, h2⟩ | ⟨k', i, p, h1, h2⟩
        · refine Or.inl ⟨h1, ?_⟩
          intro k' hk'
          rcases List.mem_cons.1 hk' with rfl | hk'
          · exact hf
          · exact h2 k' hk'
        · exact Or.inr ⟨k', i, p, List.mem_cons_of_mem _ h1, h2⟩
      | some ip =>
        obtain ⟨i, p⟩ := ip
        simp only [hf] at h
        cases hc : closeAt p w.heap with
        | error e => simp [hc] at h
        | ok heap' =>
          simp only [hc, Except.ok.injEq] at h
          subst h
          exact Or.inr ⟨k, i, p, List.mem_cons_self _ _, hf, hc, rfl, rfl⟩

/-- `Unsubscribe` does not panic on a well-formed heap with a registry of valid pointers. -/
theorem Unsubscribe_total (order : List String) (id : String) (w : World)
    (hheap : HeapOK w.heap) (hptr : PtrsOK w) :
    ∃ w', Broker.Unsubscribe order id w = .ok w' := by
  induction order with
  | nil => exact ⟨w, rfl⟩
  | cons k ks ih =>
    obtain ⟨r, hr⟩ := findSub_total w.heap id (mapIndex w.broker.subscriptions k)
      (PtrsOK_index w hptr k)
    rw [Broker.Unsubscribe]
    cases r with
    | none =>
      simp only [hr]
      exact ih
    | some ip =>
      obtain ⟨i, p⟩ := ip
      have hp : p ∈ mapIndex w.broker.subscriptions k :=
        List.getElem?_mem (findSub_some _ _ _ _ _ hr).1
      have hlt : p < w.heap.length := PtrsOK_index w hptr k p hp
      simp only [hr, closeAt_eq p w.heap hheap hlt]
      exact ⟨_, rfl⟩

theorem eraseIdx_eq_nil_iff (l : List Ptr) (i : Nat) (p : Ptr) (h : l[i]? = some p) :
    l.eraseIdx i = [] ↔ l = [p] := by
  have hi : i < l.length := by
    by_contra hc
    rw [List.getElem?_eq_none (by omega)] at h
    simp at h
  constructor
  · intro he
    have hlen : (l.eraseIdx i).length = l.length - 1 := List.length_eraseIdx_of_lt hi
    rw [he] at hlen
    simp only [List.length_nil] at hlen
    have h1 : l.length = 1 := by omega
    match l, h1 with
    | [a], _ =>
      have : i = 0 := by simp at hi; omega
      subst this
      simp at h
      rw [h]
  · intro he
    subst he
    simp only [List.length_singleton] at hi
    have : i = 0 := by omega
    subst this
    rfl

theorem lt_of_getElem? (heap : Heap) (p : Ptr) (s : Subscription) (h : heap[p]? = some s) :
    p < heap.length := by
  by_contra hc
  have hle : heap.length ≤ p := Nat.le_of_not_lt hc
  rw [List.getElem?_eq_none hle] at h
  exact Option.noConfusion h

theorem closeAt_ok (q : Ptr) (heap heap' : Heap) (h : closeAt q heap = .ok heap') :
    ∃ s s', heap[q]? = some s ∧ s.Close = .ok s' ∧ heap' = heap.set q s' := by
  unfold closeAt at h
  cases hd : deref heap q with
  | error e => simp [hd] at h
  | ok s =>
    simp only [hd] at h
    cases hc : s.Close with
    | error e => simp [hc] at h
    | ok s' =>
      simp only [hc, Except.ok.injEq] at h
      exact ⟨s, s', (deref_ok_iff heap q s).1 hd, hc, h.symm⟩

theorem sendAt_ok (q : Ptr) (msg : Message) (heap heap' : Heap)
    (h : sendAt q msg heap = .ok heap') :
    ∃ s s', heap[q]? = some s ∧ s.SendMessage msg = .ok s' ∧ heap' = heap.set q s' := by
  unfold sendAt at h
  cases hd : deref heap q with
  | error e => simp [hd] at h
  | ok s =>
    simp only [hd] at h
    cases hc : s.SendMessage msg with
    | error e => simp [hc] at h
    | ok s' =>
      simp only [hc, Except.ok.injEq] at h
      exact ⟨s, s', (deref_ok_iff heap q s).1 hd, hc, h.symm⟩

/-- Writing `s'` at `q`, where `s'` comes from the subscription at `q` by one step,
moves every allocated subscription by at most one step. -/
theorem set_sub (heap : Heap) (q : Ptr) (s0 s0' : Subscription) (h0 : heap[q]? = some s0)
    (hst : SubStep s0 s0') (p : Ptr) (s : Subscription) (hs : heap[p]? = some s) :
    ∃ s', (heap.set q s0')[p]? = some s' ∧ Relation.ReflTransGen SubStep s s' := by
  by_cases hpq : q = p
  · subst hpq
    rw [h0] at hs
    cases hs
    have hlt : q < heap.length := lt_of_getElem? heap q s0 h0
    exact ⟨s0', by simp [List.getElem?_set, hlt], Relation.ReflTransGen.single hst⟩
  · exact ⟨s, by simp [List.getElem?_set, hpq, hs], Relation.ReflTransGen.refl⟩

theorem closeAt_sub (q : Ptr) (heap heap' : Heap) (h : closeAt q heap = .ok heap')
    (p : Ptr) (s : Subscription) (hs : heap[p]? = some s) :
    ∃ s', heap'[p]? = some s' ∧ Relation.ReflTransGen SubStep s s' := by
  obtain ⟨s0, s0', h1, h2, rfl⟩ := closeAt_ok q heap heap' h
  exact set_sub heap q s0 s0' h1 (SubStep.close s0 s0' h2) p s hs

theorem sendAt_sub (q : Ptr) (msg : Message) (heap heap' : Heap)
    (h : sendAt q msg heap = .ok heap') (p : Ptr) (s : Subscription) (hs : heap[p]? = some s) :
    ∃ s', heap'[p]? = some s' ∧ Relation.ReflTransGen SubStep s s' := by
  obtain ⟨s0, s0', h1, h2, rfl⟩ := sendAt_ok q msg heap heap' h
  exact set_sub heap q s0 s0' h1 (SubStep.send s0 s0' msg h2) p s hs

theorem closeEach_sub (ps : List Ptr) (heap heap' : Heap) (h : closeEach ps heap = .ok heap')
    (p : Ptr) (s : Subscription) (hs : heap[p]? = some s) :
    ∃ s', heap'[p]? = some s' ∧ Relation.ReflTransGen SubStep s s' := by
  induction ps generalizing heap s with
  | nil =>
    simp only [closeEach, Except.ok.injEq] at h
    subst h
    exact ⟨s, hs, Relation.ReflTransGen.refl⟩
  | cons q qs ih =>
    rw [closeEach] at h
    cases hc : closeAt q heap with
    | error e => simp [hc] at h
    | ok heap1 =>
      simp only [hc] at h
      obtain ⟨s1, h1, r1⟩ := closeAt_sub q heap heap1 hc p s hs
      obtain ⟨s2, h2, r2⟩ := ih heap1 h s1 h1
      exact ⟨s2, h2, r1.trans r2⟩

theorem closeTopics_sub (m : Registry) (order : List String) (heap heap' : Heap)
    (h : closeTopics m order heap = .ok heap')
    (p : Ptr) (s : Subscription) (hs : heap[p]? = some s) :
    ∃ s', heap'[p]? = some s' ∧ Relation.ReflTransGen SubStep s s' := by
  induction order generalizing heap s with
  | nil =>
    simp only [closeTopics, Except.ok.injEq] at h
    subst h
    exact ⟨s, hs, Relation.ReflTransGen.refl⟩
  | cons k ks ih =>
    rw [closeTopics] at h
    cases hc : closeEach (mapIndex m k) heap with
    | error e => simp [hc] at h
    | ok heap1 =>
      simp only [hc] at h
      obtain ⟨s1, h1, r1⟩ := closeEach_sub _ heap heap1 hc p s hs
      obtain ⟨s2, h2, r2⟩ := ih heap1 h s1 h1
      exact ⟨s2, h2, r1.trans r2⟩

/-- In one step of the program every allocated subscription stays allocated at its
address, and what happens to it is a sequence of `SendMessage`, `Close` and reads. -/
theorem step_sub (op : Op) (w w' : World) (h : step op w = .ok w')
    (p : Ptr) (s : Subscription) (hs : w.heap[p]? = some s) :
    ∃ s', w'.heap[p]? = some s' ∧ Relation.ReflTransGen SubStep s s' := by
  have hlt : p < w.heap.length := lt_of_getElem? w.heap p s hs
  cases op with
  | subscribe rnd now t =>
    simp only [step, Except.ok.injEq] at h
    subst h
    exact ⟨s, by simp [Broker.Subscribe, List.getElem?_append_left hlt, hs],
      Relation.ReflTransGen.refl⟩
  | unsubscribe order id =>
    rcases Unsubscribe_cases order id w w' h with ⟨rfl, _⟩ | ⟨k, i, q, _, _, hc, _, _⟩
    · exact ⟨s, hs, Relation.ReflTransGen.refl⟩
    · exact closeAt_sub q w.heap w'.heap hc p s hs
  | publish msg =>
    simp only [step, Except.ok.injEq] at h
    subst h
    refine ⟨s, ?_, Relation.ReflTransGen.refl⟩
    unfold Broker.Publish
    simp only
    split <;> exact hs
  | close order =>
    simp only [step, Broker.Close] at h
    cases hc : closeTopics w.broker.subscriptions order w.heap with
    | error e => simp [hc] at h
    | ok heap' =>
      simp only [hc, Except.ok.injEq] at h
      subst h
      exact closeTopics_sub _ order w.heap heap' hc p s hs
  | schedule i =>
    simp only [step, runGoroutine] at h
    cases hg : w.goroutines[i]? with
    | none =>
      simp only [hg, Except.ok.injEq] at h
      subst h
      exact ⟨s, hs, Relation.ReflTransGen.refl⟩
    | some task =>
      obtain ⟨q, msg⟩ := task
      simp only [hg] at h
      cases hc : sendAt q msg w.heap with
      | error e => simp [hc] at h
      | ok heap' =>
        simp only [hc, Except.ok.injEq] at h
        subst h
        exact sendAt_sub q msg w.heap heap' hc p s hs
  | read q =>
    simp only [step, consume] at h
    cases hd : deref w.heap q with
    | error e => simp [hd] at h
    | ok s0 =>
      simp only [hd, Except.ok.injEq] at h
      subst h
      exact set_sub w.heap q s0 _ ((deref_ok_iff _ _ _).1 hd) (SubStep.read s0) p s hs

theorem steps_sub (w w' : World) (h : Steps w w')
    (p : Ptr) (s : Subscription) (hs : w.heap[p]? = some s) :
    ∃ s', w'.heap[p]? = some s' ∧ Relation.ReflTransGen SubStep s s' := by
  induction h with
  | refl => exact ⟨s, hs, Relation.ReflTransGen.refl⟩
  | tail w1 w2 op _ _ hstep ih =>
    obtain ⟨s1, h1, r1⟩ := ih
    obtain ⟨s2, h2, r2⟩ := step_sub op w1 w2 hstep p s1 h1
    exact ⟨s2, h2, r1.trans r2⟩

/-- The effect of `Unsubscribe` when some registered subscription has the id. -/
theorem Unsubscribe_found (w : World) (order : List String) (id : String)
    (hheap : HeapOK w.heap) (hptr : PtrsOK w)
    (hord : order.Perm (mapKeys w.broker.subscriptions))
    (hreg : ∃ k, ∃ p ∈ mapIndex w.broker.subscriptions k,
      ∃ s, w.heap[p]? = some s ∧ s.ID = id) :
    ∃ w' k i p s,
      Broker.Unsubscribe order id w = .ok w' ∧
      (mapIndex w.broker.subscriptions k)[i]? = some p ∧
      w.heap[p]? = some s ∧ s.ID = id ∧
      w'.heap = w.heap.set p s.markClosed ∧ s.markClosed.closed = true ∧
      mapIndex w'.broker.subscriptions k = (mapIndex w.broker.subscriptions k).eraseIdx i ∧
      (∀ k', k' ≠ k →
        mapIndex w'.broker.subscriptions k' = mapIndex w.broker.subscriptions k' ∧
        mapHasKey w'.broker.subscriptions k' = mapHasKey w.broker.subscriptions k') ∧
      (mapHasKey w'.broker.subscriptions k = false ↔
        mapIndex w.broker.subscriptions k = [p]) ∧
      w'.goroutines = w.goroutines := by
  obtain ⟨w', hw'⟩ := Unsubscribe_total order id w hheap hptr
  rcases Unsubscribe_cases order id w w' hw' with ⟨_, hnone⟩ | ⟨k, i, p, hk, hf, hc, hg, hm⟩
  · exfalso
    obtain ⟨k, p, hp, s, hs, hid⟩ := hreg
    have hk : k ∈ order :=
      hord.mem_iff.2 ((mapHasKey_iff _ _).1 (mapHasKey_of_mem_mapIndex _ k p hp))
    obtain ⟨s', hs', hne⟩ := findSub_none _ _ _ (hnone k hk) p hp
    rw [hs] at hs'
    cases hs'
    exact hne hid
  · obtain ⟨h1, ⟨s, h2, h3⟩, _⟩ := findSub_some _ _ _ _ _ hf
    have hlt : p < w.heap.length := PtrsOK_index w hptr k p (List.getElem?_mem h1)
    have hsp : w.heap[p] = s := by
      rw [List.getElem?_eq_getElem hlt] at h2
      exact Option.some.inj h2
    rw [closeAt_eq p w.heap hheap hlt, hsp] at hc
    refine ⟨w', k, i, p, s, hw', h1, h2, h3, (Except.ok.inj hc).symm, rfl, ?_, ?_, ?_, hg⟩
    · rw [hm, mapIndex_removeAt, if_pos rfl]
    · intro k' hk'
      have hne : ¬ k = k' := fun h => hk' h.symm
      rw [hm, mapIndex_removeAt, mapHasKey_removeAt, if_neg hne, if_neg hne]
      exact ⟨rfl, rfl⟩
    · rw [hm, mapHasKey_removeAt, if_pos rfl, decide_eq_false_iff_not, not_not]
      exact eraseIdx_eq_nil_iff _ i p h1

theorem Close_closed (s : Subscription) (h : s.closed = true) : s.Close = .ok s := by
  simp [Subscription.Close, h]

/-- One step on a closed subscription leaves it closed and can only take messages off
the front of its queue. -/
theorem SubStep_closed (s s' : Subscription) (h : SubStep s s') (hc : s.closed = true)
    (hch : s.messageChannel.closed = true) :
    s'.closed = true ∧ s'.messageChannel.closed = true ∧
      ∃ n, s'.messageChannel.buf = s.messageChannel.buf.drop n := by
  cases h with
  | send _ msg hs =>
    rw [SendMessage_closed s msg hc] at hs
    cases hs
    exact ⟨hc, hch, 0, rfl⟩
  | close _ hs =>
    rw [Close_closed s hc] at hs
    cases hs
    exact ⟨hc, hch, 0, rfl⟩
  | read =>
    cases hb : s.messageChannel.buf with
    | nil =>
      rw [receive_nil s hb]
      exact ⟨hc, hch, 0, by simp [hb]⟩
    | cons m rest =>
      rw [receive_cons s m rest hb]
      exact ⟨hc, hch, 1, by simp⟩

theorem SubSteps_closed (s s' : Subscription) (h : Relation.ReflTransGen SubStep s s')
    (hc : s.closed = true) (hch : s.messageChannel.closed = true) :
    s'.closed = true ∧ s'.messageChannel.closed = true ∧
      ∃ n, s'.messageChannel.buf = s.messageChannel.buf.drop n := by
  induction h with
  | refl => exact ⟨hc, hch, 0, rfl⟩
  | tail _ hstep ih =>
    obtain ⟨h1, h2, n, h3⟩ := ih
    obtain ⟨g1, g2, m, g3⟩ := SubStep_closed _ _ hstep h1 h2
    exact ⟨g1, g2, n + m, by rw [g3, h3, List.drop_drop, Nat.add_comm]⟩

theorem DistinctIDs_index (w : World) (h : DistinctIDs w) (k k' : String) (p q : Ptr)
    (hp : p ∈ mapIndex w.broker.subscriptions k) (hq : q ∈ mapIndex w.broker.subscriptions k')
    (hid : (w.heap[p]?).map Subscription.ID = (w.heap[q]?).map Subscription.ID) : p = q := by
  obtain ⟨e, he, _, h2⟩ := mem_mapIndex _ k p hp
  obtain ⟨e', he', _, h2'⟩ := mem_mapIndex _ k' q hq
  exact h e he p h2 e' he' q h2' hid

/-- The call `sub.SendMessage(msg)` through a valid pointer into a well-formed heap. -/
theorem sendAt_eq (q : Ptr) (msg : Message) (heap : Heap) (hheap : HeapOK heap)
    (hq : q < heap.length) :
    sendAt q msg heap
      = .ok (heap.set q (if heap[q].accepts then heap[q].enqueue msg else heap[q])) := by
  have hwf : heap[q].WF := hheap _ (List.getElem_mem hq)
  simp only [sendAt, deref_of_lt heap q hq, SendMessage_eq _ msg hwf]

theorem offered_WF (s : Subscription) (msg : Message) (hwf : s.WF) :
    (if s.accepts then s.enqueue msg else s).WF := by
  by_cases ha : s.accepts = true
  · rw [if_pos ha]
    simp only [Subscription.accepts, Bool.and_eq_true, decide_eq_true_eq] at ha
    exact enqueue_WF s msg hwf ha.2
  · rw [if_neg ha]
    exact hwf

/-- Pending calls `SendMessage(msg)` on pairwise different subscriptions, run in the
order of the list: each target is offered the message once, nothing else changes. -/
theorem runAll_spec (msg : Message) (sched : List (Ptr × Message)) (heap : Heap)
    (hheap : HeapOK heap)
    (hmsg : ∀ t ∈ sched, t.2 = msg)
    (hptr : ∀ t ∈ sched, t.1 < heap.length)
    (hnd : (sched.map Prod.fst).Nodup) :
    ∃ heap', runAll sched heap = .ok heap' ∧ heap'.length = heap.length ∧ HeapOK heap' ∧
      ∀ p s, heap[p]? = some s →
        heap'[p]? =
          some (if p ∈ sched.map Prod.fst ∧ s.accepts = true then s.enqueue msg else s) := by
  induction sched generalizing heap with
  | nil =>
    refine ⟨heap, rfl, rfl, hheap, ?_⟩
    intro p s hs
    simp [hs]
  | cons t rest ih =>
    obtain ⟨q, m⟩ := t
    have hm : m = msg := hmsg (q, m) (List.mem_cons_self _ _)
    subst hm
    have hq : q < heap.length := hptr (q, m) (List.mem_cons_self _ _)
    have hwf : heap[q].WF := hheap _ (List.getElem_mem hq)
    have h1 := sendAt_eq q m heap hheap hq
    simp only [List.map_cons, List.nodup_cons] at hnd
    obtain ⟨heap', g1, g2, g3, g4⟩ :=
      ih (heap.set q (if heap[q].accepts then heap[q].enqueue m else heap[q]))
        (HeapOK_set heap q _ hheap (offered_WF _ m hwf))
        (fun t ht => hmsg t (List.mem_cons_of_mem _ ht))
        (fun t ht => by rw [List.length_set]; exact hptr t (List.mem_cons_of_mem _ ht))
        hnd.2
    refine ⟨heap', by simp [runAll, h1, g1], by rw [g2, List.length_set], g3, ?_⟩
    intro p s hs
    by_cases hpq : q = p
    · subst hpq
      have hsq : heap[q] = s := by
        rw [List.getElem?_eq_getElem hq] at hs
        exact Option.some.inj hs
      subst hsq
      have hset : (heap.set q (if heap[q].accepts then heap[q].enqueue m else heap[q]))[q]?
          = some (if heap[q].accepts then heap[q].enqueue m else heap[q]) := by
        simp [List.getElem?_set, hq]
      rw [g4 q _ hset, if_neg (fun h => hnd.1 h.1)]
      simp only [List.map_cons, List.mem_cons, true_or, true_and]
    · rw [g4 p s (by simp [List.getElem?_set, hpq, hs])]
      have hne : ¬ p = q := fun h => hpq h.symm
      simp only [List.map_cons, List.mem_cons, hne, false_or]

theorem forall_mem_set (P : Subscription → Prop) (heap : Heap) (q : Ptr) (s' : Subscription)
    (h : ∀ s ∈ heap, P s) (hs' : P s') : ∀ s ∈ heap.set q s', P s := by
  intro s hs
  rcases List.mem_or_eq_of_mem_set hs with h1 | h1
  · exact h s h1
  · rw [h1]; exact hs'

/-- Overwriting a subscription by one for the same topic keeps every address allocated
with a subscription for the topic it had. -/
theorem getElem?_set_topic (heap : Heap) (q : Ptr) (s0 s0' : Subscription)
    (h0 : heap[q]? = some s0) (ht : s0'.Topic.String = s0.Topic.String)
    (p : Ptr) (s : Subscription) (hs : heap[p]? = some s) :
    ∃ s', (heap.set q s0')[p]? = some s' ∧ s'.Topic.String = s.Topic.String := by
  by_cases hpq : q = p
  · subst hpq
    rw [h0] at hs
    cases hs
    exact ⟨s0', by simp [List.getElem?_set, lt_of_getElem? heap q s0 h0], ht⟩
  · exact ⟨s, by simp [List.getElem?_set, hpq, hs], rfl⟩

/-- What survives an update of the heap that keeps lengths, well-formedness, topics and
the property of the queues: the whole invariant, for an unchanged registry and pool. -/
theorem Inv_of_heap (w : World) (heap' : Heap) (hinv : Inv w)
    (hheap : HeapOK heap')
    (htopic : ∀ (p : Ptr) (s : Subscription), w.heap[p]? = some s →
      ∃ s', heap'[p]? = some s' ∧ s'.Topic.String = s.Topic.String)
    (hq : ∀ s ∈ heap', ∀ m ∈ s.messageChannel.buf, m.Topic.String = s.Topic.String) :
    Inv { w with heap := heap' } := by
  refine ⟨hheap, ?_, hinv.nodup, ?_, hq⟩
  · intro k p hp
    obtain ⟨s, h1, h2⟩ := hinv.reg k p hp
    obtain ⟨s', g1, g2⟩ := htopic p s h1
    exact ⟨s', g1, g2.trans h2⟩
  · intro t ht
    obtain ⟨s, h1, h2⟩ := hinv.tasks t ht
    obtain ⟨s', g1, g2⟩ := htopic t.1 s h1
    exact ⟨s', g1, g2.trans h2⟩

theorem NewBroker_Inv : Inv NewBroker := by
  refine ⟨?_, ?_, ?_, ?_, ?_⟩
  · intro s hs; simp [NewBroker] at hs
  · intro k p hp; simp [NewBroker, mapIndex] at hp
  · intro k; simp [NewBroker, mapIndex]
  · intro t ht; simp [NewBroker] at ht
  · intro s hs; simp [NewBroker] at hs

theorem Subscribe_Inv (rnd : List (Fin 256)) (now : Nat) (t : Topic) (w : World)
    (hinv : Inv w) : Inv (Broker.Subscribe rnd now t w).1 := by
  have hold : ∀ (p : Ptr) (s : Subscription), w.heap[p]? = some s →
      (w.heap ++ [NewSubscription rnd now t])[p]? = some s := by
    intro p s hs
    rw [List.getElem?_append_left (lt_of_getElem? _ p s hs)]
    exact hs
  refine ⟨?_, ?_, ?_, ?_, ?_⟩
  · intro s hs
    simp only [Broker.Subscribe, List.mem_append, List.mem_singleton] at hs
    rcases hs with hs | rfl
    · exact hinv.heap s hs
    · exact NewSubscription_WF rnd now t
  · intro k p hp
    simp only [Broker.Subscribe, mapIndex_mapAssign] at hp ⊢
    by_cases hk : t.String = k
    · rw [if_pos hk] at hp
      rcases List.mem_append.1 hp with hp | hp
      · rw [hk] at hp
        obtain ⟨s, h1, h2⟩ := hinv.reg k p hp
        exact ⟨s, hold p s h1, h2⟩
      · simp only [List.mem_singleton] at hp
        subst hp
        exact ⟨NewSubscription rnd now t, by simp, hk⟩
    · rw [if_neg hk] at hp
      obtain ⟨s, h1, h2⟩ := hinv.reg k p hp
      exact ⟨s, hold p s h1, h2⟩
  · intro k
    simp only [Broker.Subscribe, mapIndex_mapAssign]
    by_cases hk : t.String = k
    · rw [if_pos hk]
      refine List.Nodup.append (hinv.nodup _) (List.nodup_singleton _) ?_
      intro p hp hp'
      simp only [List.mem_singleton] at hp'
      subst hp'
      obtain ⟨s, h1, _⟩ := hinv.reg _ _ hp
      exact absurd (lt_of_getElem? _ _ s h1) (Nat.lt_irrefl _)
    · rw [if_neg hk]
      exact hinv.nodup k
  · intro tk htk
    obtain ⟨s, h1, h2⟩ := hinv.tasks tk htk
    exact ⟨s, hold _ s h1, h2⟩
  · intro s hs m hm
    simp only [Broker.Subscribe, List.mem_append, List.mem_singleton] at hs
    rcases hs with hs | rfl
    · exact hinv.queues s hs m hm
    · simp [NewSubscription, Chan.make] at hm

theorem Publish_Inv (msg : Message) (w : World) (hinv : Inv w) :
    Inv (Broker.Publish msg w) := by
  unfold Broker.Publish
  simp only
  split
  · exact hinv
  · refine ⟨hinv.heap, hinv.reg, hinv.nodup, ?_, hinv.queues⟩
    intro t ht
    rcases List.mem_append.1 ht with ht | ht
    · exact hinv.tasks t ht
    · obtain ⟨p, hp, rfl⟩ := List.mem_map.1 ht
      exact hinv.reg _ p hp

/-- Shrinking the slices of the registry and the pool of goroutines keeps the invariant. -/
theorem Inv_of_sub (w : World) (m' : Registry) (tasks' : List (Ptr × Message)) (hinv : Inv w)
    (hm : ∀ k, (mapIndex m' k).Sublist (mapIndex w.broker.subscriptions k))
    (ht : ∀ t ∈ tasks', t ∈ w.goroutines) :
    Inv { w with broker := { subscriptions := m' }, goroutines := tasks' } := by
  refine ⟨hinv.heap, ?_, ?_, ?_, hinv.queues⟩
  · intro k p hp
    exact hinv.reg k p ((hm k).subset hp)
  · intro k
    exact (hinv.nodup k).sublist (hm k)
  · intro t h
    exact hinv.tasks t (ht t h)

theorem markClosed_heap_Inv (w : World) (p : Ptr) (hinv : Inv w) (hp : p < w.heap.length) :
    Inv { w with heap := w.heap.set p w.heap[p].markClosed } := by
  have hwf : w.heap[p].WF := hinv.heap _ (List.getElem_mem hp)
  refine Inv_of_heap w _ hinv (HeapOK_set _ p _ hinv.heap (markClosed_WF _ hwf)) ?_ ?_
  · intro q s hs
    exact getElem?_set_topic w.heap p w.heap[p] w.heap[p].markClosed
      (List.getElem?_eq_getElem hp) rfl q s hs
  · exact forall_mem_set _ w.heap p _ hinv.queues
      (fun m hm => hinv.queues _ (List.getElem_mem hp) m hm)

theorem Unsubscribe_Inv (order : List String) (id : String) (w w' : World) (hinv : Inv w)
    (h : Broker.Unsubscribe order id w = .ok w') : Inv w' := by
  rcases Unsubscribe_cases order id w w' h with ⟨rfl, _⟩ | ⟨k, i, p, _, hf, hc, hg, hm⟩
  · exact hinv
  · obtain ⟨h1, ⟨s, h2, _⟩, _⟩ := findSub_some _ _ _ _ _ hf
    have hlt : p < w.heap.length := lt_of_getElem? _ _ s h2
    rw [closeAt_eq p w.heap hinv.heap hlt] at hc
    have e : w' = { ({ w with heap := w.heap.set p w.heap[p].markClosed } : World) with
        broker := { subscriptions := removeAt w.broker.subscriptions k i },
        goroutines := w.goroutines } := by
      cases w'
      simp only [World.mk.injEq] at hg hm ⊢
      simp only [Except.ok.injEq] at hc
      exact ⟨hc.symm, by rw [← hm], hg⟩
    rw [e]
    refine Inv_of_sub _ _ _ (markClosed_heap_Inv w p hinv hlt) ?_ (fun t ht => ht)
    intro k'
    rw [mapIndex_removeAt]
    by_cases hk : k = k'
    · rw [if_pos hk, ← hk]
      exact List.eraseIdx_sublist _ _
    · rw [if_neg hk]

theorem Close_Inv (order : List String) (w w' : World) (hinv : Inv w)
    (h : Broker.Close order w = .ok w') : Inv w' := by
  obtain ⟨heap', h1, h2, h3, h4⟩ := closeTopics_spec w.broker.subscriptions order w.heap
    hinv.heap (fun k p hp => by
      obtain ⟨s, hs, _⟩ := hinv.reg k p hp
      exact lt_of_getElem? _ _ s hs)
  simp only [Broker.Close, h1, Except.ok.injEq] at h
  subst h
  have hpt : ∀ (p : Ptr) (s' : Subscription), heap'[p]? = some s' →
      ∃ s, w.heap[p]? = some s ∧ s'.Topic.String = s.Topic.String ∧
        s'.messageChannel.buf = s.messageChannel.buf := by
    intro p s' hs'
    have hlt : p < w.heap.length := h2 ▸ lt_of_getElem? _ _ s' hs'
    refine ⟨w.heap[p], List.getElem?_eq_getElem hlt, ?_⟩
    rw [h4 p, List.getElem?_eq_getElem hlt] at hs'
    split at hs'
    · simp only [Option.map_some', Option.some.injEq] at hs'
      subst hs'
      exact ⟨rfl, rfl⟩
    · simp only [Option.some.injEq] at hs'
      subst hs'
      exact ⟨rfl, rfl⟩
  have hi : Inv { w with heap := heap' } := by
    refine Inv_of_heap w heap' hinv h3 ?_ ?_
    · intro p s hs
      have hlt : p < heap'.length := h2.symm ▸ lt_of_getElem? _ _ s hs
      obtain ⟨s0, g1, g2, _⟩ := hpt p heap'[p] (List.getElem?_eq_getElem hlt)
      rw [hs] at g1
      cases g1
      exact ⟨heap'[p], List.getElem?_eq_getElem hlt, g2⟩
    · intro s' hs' m hm
      obtain ⟨p, hp⟩ := List.mem_iff_getElem?.1 hs'
      obtain ⟨s, g1, g2, g3⟩ := hpt p s' hp
      rw [g2]
      rw [g3] at hm
      exact hinv.queues s (List.getElem?_mem g1) m hm
  exact Inv_of_sub _ [] w.goroutines hi (fun k => by simp [mapIndex]) (fun t ht => ht)

theorem runGoroutine_Inv (i : Nat) (w w' : World) (hinv : Inv w)
    (h : runGoroutine i w = .ok w') : Inv w' := by
  unfold runGoroutine at h
  cases hg : w.goroutines[i]? with
  | none =>
    simp only [hg, Except.ok.injEq] at h
    subst h
    exact hinv
  | some task =>
    obtain ⟨q, msg⟩ := task
    have hmem : (q, msg) ∈ w.goroutines := List.getElem?_mem hg
    obtain ⟨s, hs, htop⟩ := hinv.tasks _ hmem
    simp only at hs htop
    have hlt : q < w.heap.length := lt_of_getElem? _ _ s hs
    have hsq : w.heap[q] = s := by
      rw [List.getElem?_eq_getElem hlt] at hs
      exact Option.some.inj hs
    simp only [hg, sendAt_eq q msg w.heap hinv.heap hlt, Except.ok.injEq] at h
    subst h
    have hwf : s.WF := hsq ▸ hinv.heap _ (List.getElem_mem hlt)
    rw [hsq]
    have hi : Inv { w with heap := w.heap.set q (if s.accepts then s.enqueue msg else s) } := by
      refine Inv_of_heap w _ hinv (HeapOK_set _ q _ hinv.heap (offered_WF s msg hwf)) ?_ ?_
      · intro p s1 hs1
        refine getElem?_set_topic w.heap q s _ hs ?_ p s1 hs1
        split <;> rfl
      · refine forall_mem_set _ w.heap q _ hinv.queues ?_
        intro m hm
        have hold := hinv.queues s (List.getElem?_mem hs)
        split at hm
        · simp only [Subscription.enqueue, List.mem_append, List.mem_singleton] at hm
          rename_i ha
          rw [if_pos ha]
          rcases hm with hm | rfl
          · exact hold m hm
          · exact htop.symm
        · rename_i ha
          rw [if_neg ha]
          exact hold m hm
    exact Inv_of_sub _ w.broker.subscriptions _ hi (fun k => List.Sublist.refl _)
      (fun t ht => (List.eraseIdx_sublist _ _).subset ht)

theorem consume_Inv (q : Ptr) (w : World) (r : Option Message × World) (hinv : Inv w)
    (h : consume q w = .ok r) : Inv r.2 := by
  unfold consume at h
  cases hd : deref w.heap q with
  | error e => simp [hd] at h
  | ok s =>
    simp only [hd, Except.ok.injEq] at h
    subst h
    have hs : w.heap[q]? = some s := (deref_ok_iff _ _ _).1 hd
    have hwf : s.WF := hinv.heap s (List.getElem?_mem hs)
    have hsub : ∀ m ∈ (s.receive).2.messageChannel.buf, m ∈ s.messageChannel.buf := by
      intro m hm
      rw [← receive_queue s]
      exact List.mem_append_right _ hm
    have htop : (s.receive).2.Topic.String = s.Topic.String := by
      unfold Subscription.receive
      split <;> rfl
    refine Inv_of_heap w _ hinv (HeapOK_set _ q _ hinv.heap (receive_WF s hwf)) ?_ ?_
    · intro p s1 hs1
      exact getElem?_set_topic w.heap q s _ hs htop p s1 hs1
    · refine forall_mem_set _ w.heap q _ hinv.queues ?_
      intro m hm
      rw [htop]
      exact hinv.queues s (List.getElem?_mem hs) m (hsub m hm)

/-- Every step of the program keeps the invariant. -/
theorem step_Inv (op : Op) (w w' : World) (hinv : Inv w) (h : step op w = .ok w') :
    Inv w' := by
  cases op with
  | subscribe rnd now t =>
    simp only [step, Except.ok.injEq] at h
    subst h
    exact Subscribe_Inv rnd now t w hinv
  | unsubscribe order id => exact Unsubscribe_Inv order id w w' hinv h
  | publish msg =>
    simp only [step, Except.ok.injEq] at h
    subst h
    exact Publish_Inv msg w hinv
  | close order => exact Close_Inv order w w' hinv h
  | schedule i => exact runGoroutine_Inv i w w' hinv h
  | read q =>
    simp only [step] at h
    cases hc : consume q w with
    | error e => simp [hc] at h
    | ok r =>
      simp only [hc, Except.ok.injEq] at h
      subst h
      exact consume_Inv q w r hinv hc

theorem Steps_Inv (w w' : World) (h : Steps w w') (hinv : Inv w) : Inv w' := by
  induction h with
  | refl => exact hinv
  | tail w1 w2 op _ _ hstep ih => exact step_Inv op w1 w2 ih hstep

/-- The invariant holds in every reachable state. -/
theorem Reachable_Inv (w : World) (h : Reachable w) : Inv w :=
  Steps_Inv NewBroker w h NewBroker_Inv

theorem oneSubscriber_reachable : Reachable oneSubscriber :=
  Steps.tail NewBroker NewBroker oneSubscriber
    (.subscribe [0, 0, 0, 0, 0, 0, 0, 1] 10 usersTopic) (Steps.refl _) trivial rfl

theorem fourSubscribers_reachable : Reachable fourSubscribers :=
  Steps.tail NewBroker _ fourSubscribers (.subscribe [0, 0, 0, 0, 0, 0, 0, 4] 13 ordersTopic)
    (Steps.tail NewBroker _ _ (.subscribe [0, 0, 0, 0, 0, 0, 0, 3] 12 usersTopic)
      (Steps.tail NewBroker oneSubscriber _ (.subscribe [0, 0, 0, 0, 0, 0, 0, 2] 11 usersTopic)
        oneSubscriber_reachable trivial rfl)
      trivial rfl)
    trivial rfl

/-- A scan over subscriptions none of which has the id finds nothing. -/
theorem findSub_none_of (heap : Heap) (id : String) (subs : List Ptr)
    (h : ∀ p ∈ subs, ∃ s, heap[p]? = some s ∧ s.ID ≠ id) :
    findSub heap id subs = .ok none := by
  induction subs with
  | nil => rfl
  | cons q qs ih =>
    obtain ⟨s, hs, hne⟩ := h q (List.mem_cons_self _ _)
    rw [findSub_cons heap id q qs s hs, if_neg hne,
      ih (fun p hp => h p (List.mem_cons_of_mem _ hp))]

theorem Unsubscribe_noop (order : List String) (id : String) (w : World)
    (h : ∀ k ∈ order, findSub w.heap id (mapIndex w.broker.subscriptions k) = .ok none) :
    Broker.Unsubscribe order id w = .ok w := by
  induction order with
  | nil => rfl
  | cons k ks ih =>
    rw [Broker.Unsubscribe]
    simp only [h k (List.mem_cons_self _ _)]
    exact ih (fun k' hk' => h k' (List.mem_cons_of_mem _ hk'))

/-- When no registered subscription has the id, `Unsubscribe` returns the state it got. -/
theorem Unsubscribe_unknown (order : List String) (id : String) (w : World)
    (hno : ∀ k, ∀ p ∈ mapIndex w.broker.subscriptions k,
      ∃ s, w.heap[p]? = some s ∧ s.ID ≠ id) :
    Broker.Unsubscribe order id w = .ok w :=
  Unsubscribe_noop order id w
    (fun k _ => findSub_none_of w.heap id _ (hno k))

theorem not_mem_eraseIdx_of_nodup (l : List Ptr) (i : Nat) (p : Ptr) (hnd : l.Nodup)
    (h : l[i]? = some p) : p ∉ l.eraseIdx i := by
  induction l generalizing i with
  | nil => simp
  | cons a l ih =>
    simp only [List.nodup_cons] at hnd
    cases i with
    | zero =>
      simp only [List.getElem?_cons_zero, Option.some.injEq] at h
      subst h
      simpa using hnd.1
    | succ i =>
      simp only [List.getElem?_cons_succ] at h
      simp only [List.eraseIdx_cons_succ, List.mem_cons, not_or]
      refine ⟨?_, ih i hnd.2 h⟩
      rintro rfl
      exact hnd.1 (List.getElem?_mem h)

/-- After a successful `Unsubscribe` in a state with distinct ids, no registered
subscription has the id any more. -/
theorem Unsubscribe_id_gone (order : List String) (id : String) (w w1 : World)
    (hinv : Inv w) (hdist : DistinctIDs w)
    (hord : order.Perm (mapKeys w.broker.subscriptions))
    (h : Broker.Unsubscribe order id w = .ok w1) :
    ∀ k, ∀ p ∈ mapIndex w1.broker.subscriptions k, ∃ s, w1.heap[p]? = some s ∧ s.ID ≠ id := by
  rcases Unsubscribe_cases order id w w1 h with ⟨rfl, hnone⟩ | ⟨k0, i, p0, _, hf, hc, _, hm⟩
  · intro k p hp
    have hk : k ∈ order :=
      hord.mem_iff.2 ((mapHasKey_iff _ _).1 (mapHasKey_of_mem_mapIndex _ k p hp))
    exact findSub_none _ _ _ (hnone k hk) p hp
  · obtain ⟨h1, ⟨s0, h2, h3⟩, _⟩ := findSub_some _ _ _ _ _ hf
    have hlt : p0 < w.heap.length := lt_of_getElem? _ _ s0 h2
    rw [closeAt_eq p0 w.heap hinv.heap hlt] at hc
    have hheap : w1.heap = w.heap.set p0 w.heap[p0].markClosed := (Except.ok.inj hc).symm
    have hp0 : p0 ∈ mapIndex w.broker.subscriptions k0 := List.getElem?_mem h1
    intro k p hp
    rw [hm, mapIndex_removeAt] at hp
    have hpold : p ∈ mapIndex w.broker.subscriptions k := by
      by_cases hk : k0 = k
      · rw [if_pos hk] at hp
        exact hk ▸ (List.eraseIdx_sublist _ _).subset hp
      · rw [if_neg hk] at hp
        exact hp
    have hne : p ≠ p0 := by
      rintro rfl
      by_cases hk : k0 = k
      · rw [if_pos hk] at hp
        exact not_mem_eraseIdx_of_nodup _ i p (hinv.nodup k0) h1 hp
      · obtain ⟨s, g1, g2⟩ := hinv.reg k p hpold
        obtain ⟨s', g1', g2'⟩ := hinv.reg k0 p hp0
        rw [g1] at g1'
        cases g1'
        exact hk (g2'.symm.trans g2)
    obtain ⟨s, g1, _⟩ := hinv.reg k p hpold
    refine ⟨s, ?_, ?_⟩
    · rw [hheap]
      simp [List.getElem?_set, Ne.symm hne, g1]
    · intro hid
      apply hne
      exact DistinctIDs_index w hdist k k0 p p0 hpold hp0
        (by rw [g1, h2]; exact congrArg some (hid.trans h3.symm))

theorem NoSuchID_index (w : World) (id : String) (hptr : PtrsOK w) (hno : NoSuchID w id) :
    ∀ k, ∀ p ∈ mapIndex w.broker.subscriptions k, ∃ s, w.heap[p]? = some s ∧ s.ID ≠ id := by
  intro k p hp
  obtain ⟨e, he, _, h2⟩ := mem_mapIndex _ k p hp
  have hlt : p < w.heap.length := hptr e he p h2
  refine ⟨w.heap[p], List.getElem?_eq_getElem hlt, ?_⟩
  intro hid
  apply hno e he p h2
  rw [List.getElem?_eq_getElem hlt]
  exact congrArg some hid

theorem Publish_of_nil (msg : Message) (w : World)
    (h : mapIndex w.broker.subscriptions msg.Topic.String = []) :
    Broker.Publish msg w = w := by
  simp [Broker.Publish, h]

theorem Close_ok_closed (s s1 : Subscription) (h : s.Close = .ok s1) :
    s1.closed = true ∧ s1.messageChannel.buf = s.messageChannel.buf ∧
      s1.id = s.id ∧ s1.topic = s.topic := by
  by_cases hc : s.closed = true
  · rw [Close_closed s hc] at h
    cases h
    exact ⟨hc, rfl, rfl, rfl⟩
  · have hopen : s.closed = false := by simpa using hc
    by_cases hch : s.messageChannel.closed = true
    · simp [Subscription.Close, hopen, Chan.close, hch] at h
    · simp only [Subscription.Close, hopen, Bool.false_eq_true, if_false, Chan.close, hch,
        Except.ok.injEq] at h
      subst h
      exact ⟨rfl, rfl, rfl, rfl⟩

theorem receive_closed (s : Subscription) : (s.receive).2.closed = s.closed := by
  unfold Subscription.receive
  split <;> rfl

/-- One step on a subscription never clears its `closed` field. -/
theorem SubStep_closed_flag (s s' : Subscription) (h : SubStep s s') (hc : s.closed = true) :
    s'.closed = true := by
  cases h with
  | send _ msg hs =>
    rw [SendMessage_closed s msg hc] at hs
    cases hs
    exact hc
  | close _ hs => exact (Close_ok_closed s s' hs).1
  | read =>
    rw [receive_closed]
    exact hc

theorem SubSteps_closed_flag (s s' : Subscription) (h : Relation.ReflTransGen SubStep s s')
    (hc : s.closed = true) : s'.closed = true := by
  induction h with
  | refl => exact hc
  | tail _ hstep ih => exact SubStep_closed_flag _ _ hstep ih

/-- A recorded operation is a step of the subscription. -/
theorem sessionStep_SubStep (op : SubOp) (t t' : Session) (h : sessionStep op t = .ok t') :
    SubStep t.sub t'.sub := by
  cases op with
  | send msg =>
    simp only [sessionStep] at h
    cases hs : t.sub.SendMessage msg with
    | error e => simp [hs] at h
    | ok s' =>
      simp only [hs, Except.ok.injEq] at h
      subst h
      exact SubStep.send _ _ msg hs
  | close =>
    simp only [sessionStep] at h
    cases hs : t.sub.Close with
    | error e => simp [hs] at h
    | ok s' =>
      simp only [hs, Except.ok.injEq] at h
      subst h
      exact SubStep.close _ _ hs
  | read =>
    simp only [sessionStep, Except.ok.injEq] at h
    subst h
    exact SubStep.read _

theorem sessionRun_SubSteps (ops : List SubOp) (t t' : Session)
    (h : sessionRun ops t = .ok t') : Relation.ReflTransGen SubStep t.sub t'.sub := by
  induction ops generalizing t with
  | nil =>
    simp only [sessionRun, Except.ok.injEq] at h
    subst h
    exact Relation.ReflTransGen.refl
  | cons op ops ih =>
    rw [sessionRun] at h
    cases hs : sessionStep op t with
    | error e => simp [hs] at h
    | ok t1 =>
      simp only [hs] at h
      exact (Relation.ReflTransGen.single (sessionStep_SubStep op t t1 hs)).trans (ih t1 h)

theorem recv_endOfStream_iff (ch : Chan) :
    ch.recv = .endOfStream ↔ ch.closed = true ∧ ch.buf = [] := by
  obtain ⟨buf, cap, closed⟩ := ch
  cases buf with
  | nil => cases closed <;> simp [Chan.recv]
  | cons m rest => simp [Chan.recv]

theorem closeTopics_nil (order : List String) (heap : Heap) :
    closeTopics [] order heap = .ok heap := by
  induction order with
  | nil => rfl
  | cons k ks ih => simp [closeTopics, mapIndex, closeEach, ih]

theorem Close_of_empty (order : List String) (w : World)
    (h : w.broker.subscriptions = []) : Broker.Close order w = .ok w := by
  cases w with
  | mk heap broker goroutines =>
    cases broker with
    | mk subscriptions =>
      simp only at h
      subst h
      simp [Broker.Close, closeTopics_nil]

theorem Close_ok_registry (order : List String) (w w1 : World)
    (h : Broker.Close order w = .ok w1) : w1.broker.subscriptions = [] := by
  unfold Broker.Close at h
  split at h
  · simp at h
  · simp only [Except.ok.injEq] at h
    subst h
    rfl

theorem Close_total (order : List String) (w : World) (hheap : HeapOK w.heap)
    (hptr : PtrsOK w) : ∃ w1, Broker.Close order w = .ok w1 := by
  obtain ⟨heap', h1, _⟩ :=
    closeTopics_spec w.broker.subscriptions order w.heap hheap (PtrsOK_index w hptr)
  exact ⟨{ w with heap := heap', broker := { subscriptions := [] } }, by
    simp [Broker.Close, h1]⟩

theorem mem_mapKeys_mapAssign (m : Registry) (k : String) (v : List Ptr) (k' : String) :
    k' ∈ mapKeys (mapAssign m k v) ↔ k = k' ∨ k' ∈ mapKeys m := by
  rw [← mapHasKey_iff, ← mapHasKey_iff, mapHasKey_mapAssign]
  simp

theorem mapKeys_mapAssign_nodup (m : Registry) (k : String) (v : List Ptr)
    (h : (mapKeys m).Nodup) : (mapKeys (mapAssign m k v)).Nodup := by
  induction m with
  | nil => simp [mapAssign, mapKeys]
  | cons e rest ih =>
    obtain ⟨k0, v0⟩ := e
    have hcons : mapKeys ((k0, v0) :: rest) = k0 :: mapKeys rest := rfl
    rw [hcons, List.nodup_cons] at h
    rw [mapAssign_cons]
    by_cases h0 : k0 = k
    · rw [if_pos h0]
      have : mapKeys ((k, v) :: rest) = k :: mapKeys rest := rfl
      rw [this, List.nodup_cons, ← h0]
      exact h
    · rw [if_neg h0]
      have : mapKeys ((k0, v0) :: mapAssign rest k v) = k0 :: mapKeys (mapAssign rest k v) := rfl
      rw [this, List.nodup_cons]
      refine ⟨?_, ih h.2⟩
      intro hmem
      rcases (mem_mapKeys_mapAssign rest k v k0).1 hmem with h1 | h1
      · exact h0 h1.symm
      · exact h.1 h1

theorem mem_mapAssign (m : Registry) (k : String) (v : List Ptr) (e : String × List Ptr)
    (h : e ∈ mapAssign m k v) : e = (k, v) ∨ e ∈ m := by
  induction m with
  | nil =>
    simp only [mapAssign, List.mem_singleton] at h
    exact Or.inl h
  | cons e0 rest ih =>
    obtain ⟨k0, v0⟩ := e0
    rw [mapAssign_cons] at h
    by_cases h0 : k0 = k
    · rw [if_pos h0] at h
      rcases List.mem_cons.1 h with h1 | h1
      · exact Or.inl h1
      · exact Or.inr (List.mem_cons_of_mem _ h1)
    · rw [if_neg h0] at h
      rcases List.mem_cons.1 h with h1 | h1
      · exact Or.inr (h1 ▸ List.mem_cons_self _ _)
      · rcases ih h1 with h2 | h2
        · exact Or.inl h2
        · exact Or.inr (List.mem_cons_of_mem _ h2)

theorem KeysOK_mapAssign (m : Registry) (k : String) (v : List Ptr) (h : KeysOK m)
    (hv : v ≠ []) : KeysOK (mapAssign m k v) := by
  refine ⟨mapKeys_mapAssign_nodup m k v h.1, ?_⟩
  intro e he
  rcases mem_mapAssign m k v e he with h1 | h1
  · rw [h1]; exact hv
  · exact h.2 e h1

theorem KeysOK_removeAt (m : Registry) (k : String) (i : Nat) (h : KeysOK m) :
    KeysOK (removeAt m k i) := by
  unfold removeAt
  simp only
  split
  · rename_i hlen
    refine ⟨?_, ?_⟩
    · have hsub : (mapKeys (mapDelete (mapAssign m k
          (List.take i (mapIndex m k) ++ List.drop (i + 1) (mapIndex m k))) k)).Sublist
          (mapKeys (mapAssign m k
            (List.take i (mapIndex m k) ++ List.drop (i + 1) (mapIndex m k)))) := by
        unfold mapDelete mapKeys
        exact (List.filter_sublist _).map _
      exact (mapKeys_mapAssign_nodup m k _ h.1).sublist hsub
    · intro e he
      unfold mapDelete at he
      rw [List.mem_filter] at he
      rcases mem_mapAssign m k _ e he.1 with h1 | h1
      · rw [h1] at he
        simp at he
      · exact h.2 e h1
  · rename_i hlen
    exact KeysOK_mapAssign m k _ h (fun hnil => hlen (by rw [hnil]; rfl))

theorem runGoroutine_registry (i : Nat) (w w' : World) (h : runGoroutine i w = .ok w') :
    w'.broker = w.broker := by
  unfold runGoroutine at h
  split at h
  · simp only [Except.ok.injEq] at h
    subst h
    rfl
  · split at h
    · simp at h
    · simp only [Except.ok.injEq] at h
      subst h
      rfl

theorem Publish_registry (msg : Message) (w : World) :
    (Broker.Publish msg w).broker = w.broker := by
  unfold Broker.Publish
  simp only
  split <;> rfl

theorem consume_registry (q : Ptr) (w : World) (r : Option Message × World)
    (h : consume q w = .ok r) : r.2.broker = w.broker := by
  unfold consume at h
  split at h
  · simp at h
  · simp only [Except.ok.injEq] at h
    subst h
    rfl

/-- Every step keeps the registry a map without empty slices. -/
theorem step_KeysOK (op : Op) (w w' : World) (hk : KeysOK w.broker.subscriptions)
    (h : step op w = .ok w') : KeysOK w'.broker.subscriptions := by
  cases op with
  | subscribe rnd now t =>
    simp only [step, Except.ok.injEq] at h
    subst h
    exact KeysOK_mapAssign _ _ _ hk (by simp)
  | unsubscribe order id =>
    rcases Unsubscribe_cases order id w w' h with ⟨rfl, _⟩ | ⟨k, i, p, _, _, _, _, hm⟩
    · exact hk
    · rw [hm]
      exact KeysOK_removeAt _ k i hk
  | publish msg =>
    simp only [step, Except.ok.injEq] at h
    subst h
    rw [Publish_registry]
    exact hk
  | close order =>
    rw [Close_ok_registry order w w' h]
    exact ⟨List.nodup_nil, by simp⟩
  | schedule i =>
    rw [runGoroutine_registry i w w' h]
    exact hk
  | read q =>
    simp only [step] at h
    cases hc : consume q w with
    | error e => simp [hc] at h
    | ok r =>
      simp only [hc, Except.ok.injEq] at h
      subst h
      rw [consume_registry q w r hc]
      exact hk

theorem Reachable_KeysOK (w : World) (h : Reachable w) : KeysOK w.broker.subscriptions := by
  induction h with
  | refl => exact ⟨List.nodup_nil, by simp [NewBroker]⟩
  | tail w1 w2 op _ _ hstep ih => exact step_KeysOK op w1 w2 ih hstep

/-- The slice a key is bound to is the slice of one of the entries. -/
theorem mapIndex_mem (m : Registry) (k : String) (h : mapHasKey m k = true) :
    (k, mapIndex m k) ∈ m := by
  induction m with
  | nil => simp [mapHasKey] at h
  | cons e rest ih =>
    obtain ⟨k0, v0⟩ := e
    rw [mapHasKey_cons] at h
    rw [mapIndex_cons]
    by_cases h0 : k0 = k
    · rw [if_pos h0, h0]
      exact List.mem_cons_self _ _
    · rw [if_neg h0]
      simp only [h0, decide_False, Bool.false_or] at h
      exact List.mem_cons_of_mem _ (ih h)

theorem KeysOK_iff (m : Registry) (h : KeysOK m) (k : String) :
    mapHasKey m k = true ↔ mapIndex m k ≠ [] := by
  constructor
  · intro hk
    exact h.2 _ (mapIndex_mem m k hk)
  · intro hne
    by_contra hc
    exact hne (mapIndex_eq_nil_of_not_hasKey m k (by simpa using hc))

theorem ordersUnsubscribed_reachable : Reachable ordersUnsubscribed :=
  Steps.tail NewBroker fourSubscribers ordersUnsubscribed
    (.unsubscribe ["users", "orders"] "0000000000000004") fourSubscribers_reachable
    (by decide) (by decide)

theorem enqueueAll_nil (s : Subscription) : s.enqueueAll [] = s := by
  simp [Subscription.enqueueAll]

theorem enqueue_enqueueAll (s : Subscription) (m : Message) (msgs : List Message) :
    (s.enqueue m).enqueueAll msgs = s.enqueueAll (m :: msgs) := by
  simp [Subscription.enqueueAll, Subscription.enqueue]

/-- Pending calls `SendMessage` that all target one open subscription with enough room,
run in the order of the list: the messages are appended to its queue in that order and
no other subscription changes. -/
theorem runAll_single (p : Ptr) (sched : List (Ptr × Message)) (heap : Heap)
    (s : Subscription) (hheap : HeapOK heap)
    (htgt : ∀ t ∈ sched, t.1 = p) (hs : heap[p]? = some s) (hopen : s.closed = false)
    (hroom : s.messageChannel.buf.length + sched.length ≤ 200) :
    ∃ heap', runAll sched heap = .ok heap' ∧ heap'.length = heap.length ∧
      heap'[p]? = some (s.enqueueAll (sched.map Prod.snd)) ∧
      ∀ q, q ≠ p → heap'[q]? = heap[q]? := by
  induction sched generalizing heap s with
  | nil =>
    refine ⟨heap, rfl, rfl, ?_, fun _ _ => rfl⟩
    rw [List.map_nil, enqueueAll_nil]
    exact hs
  | cons t rest ih =>
    obtain ⟨q, m⟩ := t
    have hq : q = p := htgt (q, m) (List.mem_cons_self _ _)
    subst hq
    have hlt : q < heap.length := lt_of_getElem? heap q s hs
    have hsq : heap[q] = s := by
      rw [List.getElem?_eq_getElem hlt] at hs
      exact Option.some.inj hs
    have hwf : s.WF := hsq ▸ hheap _ (List.getElem_mem hlt)
    simp only [List.length_cons] at hroom
    have hacc : s.accepts = true := by
      simp only [Subscription.accepts, hopen, Bool.not_false, Bool.true_and, decide_eq_true_eq]
      omega
    have h1 := sendAt_eq q m heap hheap hlt
    rw [hsq, if_pos hacc] at h1
    obtain ⟨heap', g1, g2, g3, g4⟩ := ih (heap.set q (s.enqueue m)) (s.enqueue m)
      (HeapOK_set heap q _ hheap (enqueue_WF s m hwf (by omega)))
      (fun t ht => htgt t (List.mem_cons_of_mem _ ht))
      (by simp [List.getElem?_set, hlt])
      hopen
      (by simp only [Subscription.enqueue, List.length_append, List.length_singleton]; omega)
    refine ⟨heap', by simp [runAll, h1, g1], by rw [g2, List.length_set], ?_, ?_⟩
    · rw [g3, enqueue_enqueueAll]
      rfl
    · intro q' hne
      rw [g4 q' hne]
      simp [List.getElem?_set, Ne.symm hne]

theorem Publish_single (msg : Message) (w : World) (p : Ptr)
    (h : mapIndex w.broker.subscriptions msg.Topic.String = [p]) :
    Broker.Publish msg w = { w with goroutines := w.goroutines ++ [(p, msg)] } := by
  simp [Broker.Publish, h]

theorem publishAll_single (msgs : List Message) (w : World) (t : String) (p : Ptr)
    (hreg : mapIndex w.broker.subscriptions t = [p])
    (htopic : ∀ m ∈ msgs, m.Topic.String = t) :
    publishAll msgs w
      = { w with goroutines := w.goroutines ++ msgs.map fun m => (p, m) } := by
  induction msgs generalizing w with
  | nil => simp [publishAll]
  | cons m rest ih =>
    have hm : m.Topic.String = t := htopic m (List.mem_cons_self _ _)
    have h1 := Publish_single m w p (by rw [hm]; exact hreg)
    have h2 := ih (Broker.Publish m w) (by rw [h1]; exact hreg)
      (fun m' hm' => htopic m' (List.mem_cons_of_mem _ hm'))
    simp only [publishAll, List.foldl_cons] at h2 ⊢
    rw [h2, h1]
    simp

theorem reads_on_empty (k : Nat) (t : Session) (h : t.sub.messageChannel.buf = []) :
    sessionRun (List.replicate k .read) t = .ok t := by
  induction k with
  | zero => rfl
  | succ k ih =>
    have hstep : sessionStep .read t = .ok t := by
      simp only [sessionStep, receive_nil t.sub h, Option.toList, List.append_nil]
    simp [List.replicate_succ, sessionRun, hstep, ih]

/-- Reading at least as often as there are queued messages yields the queue, in order,
and leaves it empty. -/
theorem reads_drain (k : Nat) (t : Session) :
    ∃ t', sessionRun (List.replicate (t.sub.messageChannel.buf.length + k) .read) t = .ok t' ∧
      t'.received = t.received ++ t.sub.messageChannel.buf ∧
      t'.sub.messageChannel.buf = [] ∧ t'.accepted = t.accepted := by
  obtain ⟨s, a, r⟩ := t
  generalize hq : s.messageChannel.buf = q
  induction q generalizing s r with
  | nil =>
    refine ⟨⟨s, a, r⟩, ?_, by simp, hq, rfl⟩
    simp only [List.length_nil, Nat.zero_add]
    exact reads_on_empty k ⟨s, a, r⟩ hq
  | cons m rest ih =>
    have hstep : sessionStep .read ⟨s, a, r⟩
        = .ok ⟨{ s with messageChannel := { s.messageChannel with buf := rest } }, a,
            r ++ [m]⟩ := by
      simp only [sessionStep, receive_cons s m rest hq, Option.toList]
    obtain ⟨t', h1, h2, h3, h4⟩ :=
      ih { s with messageChannel := { s.messageChannel with buf := rest } } (r ++ [m]) rfl
    refine ⟨t', ?_, ?_, h3, h4⟩
    · simp only [List.length_cons]
      have e : rest.length + 1 + k = (rest.length + k) + 1 := by omega
      rw [e, List.replicate_succ, sessionRun, hstep]
      exact h1
    · rw [h2]
      simp

theorem hexDigit_mem (n : Nat) : hexDigit n ∈ "0123456789abcdef".toList := by
  unfold hexDigit
  by_cases h : n < 16
  · interval_cases n <;> decide
  · have hlen : "0123456789abcdef".toList.length ≤ n := by
      have : "0123456789abcdef".toList.length = 16 := by decide
      omega
    rw [List.getD_eq_default _ _ hlen]
    decide

theorem hexDigit_inj (a b : Nat) (ha : a < 16) (hb : b < 16) (h : hexDigit a = hexDigit b) :
    a = b := by
  interval_cases a <;> interval_cases b <;> first | rfl | (exfalso; revert h; decide)

theorem hexEncode_data (bytes : List (Fin 256)) :
    (hexEncode bytes).toList
      = bytes.flatMap fun b => [hexDigit (b.val / 16), hexDigit (b.val % 16)] := rfl

theorem hexEncode_length (bytes : List (Fin 256)) :
    (hexEncode bytes).length = 2 * bytes.length := by
  unfold hexEncode
  rw [String.length]
  induction bytes with
  | nil => rfl
  | cons b bs ih =>
    simp only [List.flatMap_cons, List.length_append, List.length_cons, List.length_nil] at ih ⊢
    omega

theorem hexEncode_digits (bytes : List (Fin 256)) :
    ∀ c ∈ (hexEncode bytes).toList, c ∈ "0123456789abcdef".toList := by
  intro c hc
  rw [hexEncode_data, List.mem_flatMap] at hc
  obtain ⟨b, _, hb⟩ := hc
  simp only [List.mem_cons, List.mem_singleton, List.not_mem_nil, or_false] at hb
  rcases hb with rfl | rfl
  · exact hexDigit_mem _
  · exact hexDigit_mem _

theorem hexEncode_inj (xs ys : List (Fin 256)) (h : hexEncode xs = hexEncode ys) : xs = ys := by
  have hd : (hexEncode xs).toList = (hexEncode ys).toList := by rw [h]
  rw [hexEncode_data, hexEncode_data] at hd
  clear h
  induction xs generalizing ys with
  | nil =>
    cases ys with
    | nil => rfl
    | cons y ys => simp at hd
  | cons x xs ih =>
    cases ys with
    | nil => simp at hd
    | cons y ys =>
      simp only [List.flatMap_cons, List.cons_append, List.nil_append, List.cons.injEq] at hd
      obtain ⟨h1, h2, h3⟩ := hd
      have e1 : x.val / 16 = y.val / 16 :=
        hexDigit_inj _ _ (by have := x.isLt; omega) (by have := y.isLt; omega) h1
      have e2 : x.val % 16 = y.val % 16 :=
        hexDigit_inj _ _ (Nat.mod_lt _ (by decide)) (Nat.mod_lt _ (by decide)) h2
      have e : x = y := by
        apply Fin.ext
        have hx := Nat.div_add_mod x.val 16
        have hy := Nat.div_add_mod y.val 16
        omega
      rw [e, ih ys h3]

theorem SubStep_WF (s s' : Subscription) (h : SubStep s s') (hwf : s.WF) : s'.WF := by
  cases h with
  | send _ msg hs =>
    rw [SendMessage_eq s msg hwf] at hs
    cases hs
    exact offered_WF s msg hwf
  | close _ hs =>
    rw [Close_eq s hwf] at hs
    cases hs
    exact markClosed_WF s hwf
  | read => exact receive_WF s hwf

theorem SubSteps_WF (s s' : Subscription) (h : Relation.ReflTransGen SubStep s s')
    (hwf : s.WF) : s'.WF := by
  induction h with
  | refl => exact hwf
  | tail _ hstep ih => exact SubStep_WF _ _ hstep ih

theorem SendMessage_ok_closed (s s' : Subscription) (msg : Message)
    (h : s.SendMessage msg = .ok s') : s'.closed = s.closed := by
  unfold Subscription.SendMessage at h
  split at h
  · simp only [Except.ok.injEq] at h
    rw [h]
  · split at h
    · simp only [Except.ok.injEq] at h
      subst h
      rfl
    · simp at h

/-- Overwriting a subscription by one with the same `closed` field keeps every address
allocated with the `closed` field it had. -/
theorem getElem?_set_closed (heap : Heap) (q : Ptr) (s0 s0' : Subscription)
    (h0 : heap[q]? = some s0) (hc : s0'.closed = s0.closed)
    (p : Ptr) (s : Subscription) (hs : heap[p]? = some s) :
    ∃ s', (heap.set q s0')[p]? = some s' ∧ s'.closed = s.closed := by
  by_cases hpq : q = p
  · subst hpq
    rw [h0] at hs
    cases hs
    exact ⟨s0', by simp [List.getElem?_set, lt_of_getElem? heap q s0 h0], hc⟩
  · exact ⟨s, by simp [List.getElem?_set, hpq, hs], rfl⟩

/-- A change of the heap that keeps the `closed` fields keeps the registered
subscriptions open. -/
theorem OpenOK_of_heap (w : World) (heap' : Heap) (h : OpenOK w)
    (hkeep : ∀ (p : Ptr) (s : Subscription), w.heap[p]? = some s →
      ∃ s', heap'[p]? = some s' ∧ s'.closed = s.closed) :
    OpenOK { w with heap := heap' } := by
  intro k p hp
  obtain ⟨s, h1, h2⟩ := h k p hp
  obtain ⟨s', g1, g2⟩ := hkeep p s h1
  exact ⟨s', g1, g2.trans h2⟩

/-- The pointer `Unsubscribe` removes from a slice is registered nowhere afterwards. -/
theorem removeAt_not_mem (w : World) (hinv : Inv w) (k0 : String) (i : Nat) (p0 : Ptr)
    (h1 : (mapIndex w.broker.subscriptions k0)[i]? = some p0) (k : String) (p : Ptr)
    (hp : p ∈ mapIndex (removeAt w.broker.subscriptions k0 i) k) :
    p ∈ mapIndex w.broker.subscriptions k ∧ p ≠ p0 := by
  have hp0 : p0 ∈ mapIndex w.broker.subscriptions k0 := List.getElem?_mem h1
  rw [mapIndex_removeAt] at hp
  have hpold : p ∈ mapIndex w.broker.subscriptions k := by
    by_cases hk : k0 = k
    · rw [if_pos hk] at hp
      exact hk ▸ (List.eraseIdx_sublist _ _).subset hp
    · rw [if_neg hk] at hp
      exact hp
  refine ⟨hpold, ?_⟩
  rintro rfl
  by_cases hk : k0 = k
  · rw [if_pos hk] at hp
    exact not_mem_eraseIdx_of_nodup _ i p (hinv.nodup k0) h1 hp
  · obtain ⟨s, g1, g2⟩ := hinv.reg k p hpold
    obtain ⟨s', g1', g2'⟩ := hinv.reg k0 p hp0
    rw [g1] at g1'
    cases g1'
    exact hk (g2'.symm.trans g2)

/-- Every step keeps the registered subscriptions open. -/
theorem step_OpenOK (op : Op) (w w' : World) (hinv : Inv w) (hopen : OpenOK w)
    (h : step op w = .ok w') : OpenOK w' := by
  cases op with
  | subscribe rnd now t =>
    simp only [step, Except.ok.injEq] at h
    subst h
    intro k p hp
    simp only [Broker.Subscribe, mapIndex_mapAssign] at hp ⊢
    have hold : ∀ q ∈ mapIndex w.broker.subscriptions k,
        ∃ s, (w.heap ++ [NewSubscription rnd now t])[q]? = some s ∧ s.closed = false := by
      intro q hq
      obtain ⟨s, h1, h2⟩ := hopen k q hq
      exact ⟨s, by rw [List.getElem?_append_left (lt_of_getElem? _ q s h1)]; exact h1, h2⟩
    by_cases hk : t.String = k
    · rw [if_pos hk] at hp
      rcases List.mem_append.1 hp with hp | hp
      · exact hold p (hk ▸ hp)
      · simp only [List.mem_singleton] at hp
        subst hp
        exact ⟨NewSubscription rnd now t, by simp, rfl⟩
    · rw [if_neg hk] at hp
      exact hold p hp
  | unsubscribe order id =>
    rcases Unsubscribe_cases order id w w' h with ⟨rfl, _⟩ | ⟨k0, i, p0, _, hf, hc, _, hm⟩
    · exact hopen
    · obtain ⟨h1, ⟨s0, h2, _⟩, _⟩ := findSub_some _ _ _ _ _ hf
      have hlt : p0 < w.heap.length := lt_of_getElem? _ _ s0 h2
      rw [closeAt_eq p0 w.heap hinv.heap hlt] at hc
      have hheap : w'.heap = w.heap.set p0 w.heap[p0].markClosed := (Except.ok.inj hc).symm
      intro k p hp
      rw [hm] at hp
      obtain ⟨hpold, hne⟩ := removeAt_not_mem w hinv k0 i p0 h1 k p hp
      obtain ⟨s, g1, g2⟩ := hopen k p hpold
      refine ⟨s, ?_, g2⟩
      rw [hheap]
      simp [List.getElem?_set, Ne.symm hne, g1]
  | publish msg =>
    simp only [step, Except.ok.injEq] at h
    subst h
    intro k p hp
    have hb := Publish_registry msg w
    have hh : (Broker.Publish msg w).heap = w.heap := by
      unfold Broker.Publish
      simp only
      split <;> rfl
    rw [hb] at hp
    rw [hh]
    exact hopen k p hp
  | close order =>
    intro k p hp
    rw [Close_ok_registry order w w' h] at hp
    simp [mapIndex] at hp
  | schedule i =>
    have hb := runGoroutine_registry i w w' h
    simp only [step, runGoroutine] at h
    cases hg : w.goroutines[i]? with
    | none =>
      simp only [hg, Except.ok.injEq] at h
      subst h
      exact hopen
    | some task =>
      obtain ⟨q, msg⟩ := task
      simp only [hg] at h
      cases hc : sendAt q msg w.heap with
      | error e => simp [hc] at h
      | ok heap' =>
        simp only [hc, Except.ok.injEq] at h
        subst h
        obtain ⟨s0, s0', g1, g2, rfl⟩ := sendAt_ok q msg w.heap heap' hc
        have := OpenOK_of_heap w (w.heap.set q s0') hopen
          (getElem?_set_closed w.heap q s0 s0' g1 (SendMessage_ok_closed s0 s0' msg g2))
        exact this
  | read q =>
    simp only [step, consume] at h
    cases hd : deref w.heap q with
    | error e => simp [hd] at h
    | ok s0 =>
      simp only [hd, Except.ok.injEq] at h
      subst h
      exact OpenOK_of_heap w _ hopen
        (getElem?_set_closed w.heap q s0 _ ((deref_ok_iff _ _ _).1 hd) (receive_closed s0))

theorem Steps_Inv_OpenOK (w w' : World) (h : Steps w w') (hinv : Inv w) (hopen : OpenOK w) :
    Inv w' ∧ OpenOK w' := by
  induction h with
  | refl => exact ⟨hinv, hopen⟩
  | tail w1 w2 op _ _ hstep ih =>
    exact ⟨step_Inv op w1 w2 ih.1 hstep, step_OpenOK op w1 w2 ih.1 ih.2 hstep⟩

/-- In every reachable state the registered subscriptions are open. -/
theorem Reachable_OpenOK (w : World) (h : Reachable w) : OpenOK w :=
  (Steps_Inv_OpenOK NewBroker w h NewBroker_Inv
    (by intro k p hp; simp [NewBroker, mapIndex] at hp)).2

/-- With distinct keys, the slice a key is bound to is the slice of its entry. -/
theorem mapIndex_of_mem (m : Registry) (hnd : (mapKeys m).Nodup) (e : String × List Ptr)
    (he : e ∈ m) : mapIndex m e.1 = e.2 := by
  induction m with
  | nil => simp at he
  | cons e0 rest ih =>
    obtain ⟨k0, v0⟩ := e0
    have hcons : mapKeys ((k0, v0) :: rest) = k0 :: mapKeys rest := rfl
    rw [hcons, List.nodup_cons] at hnd
    rw [mapIndex_cons]
    rcases List.mem_cons.1 he with h1 | h1
    · rw [h1]
      simp
    · have hne : ¬ k0 = e.1 := by
        intro hk
        apply hnd.1
        rw [hk]
        exact List.mem_map.2 ⟨e, h1, rfl⟩
      rw [if_neg hne]
      exact ih hnd.2 h1

/-! ## the properties -/

/-- C1: `New name` succeeds exactly for the valid names (non-empty, only ASCII
letters, digits, dots and hyphens); a topic it returns renders as `name`; every other
string gets an error. -/
theorem C1_New_succeeds_iff_valid (name : String) :
    ((∃ t, New name = .ok t) ↔ ValidName name) ∧
    (∀ t, New name = .ok t → t.String = name) ∧
    ((∃ e, New name = .error e) ↔ ¬ ValidName name) := by
  have hv := isValidTopicName_iff name
  by_cases h0 : name = ""
  · have hnv : ¬ ValidName name := fun h => h.1 h0
    have hN : New name = .error .emptyName := by simp [New, h0]
    refine ⟨?_, ?_, ?_⟩
    · simp [hN, hnv]
    · simp [hN]
    · simp [hN, hnv]
  · by_cases h1 : isValidTopicName name = true
    · have hN : New name = .ok ⟨name⟩ := by simp [New, h0, h1]
      have hval : ValidName name := hv.1 h1
      refine ⟨?_, ?_, ?_⟩
      · simp [hN, hval]
      · intro t ht
        rw [hN] at ht
        cases ht
        rfl
      · simp [hN, hval]
    · have hN : New name = .error .invalidName := by simp [New, h0, h1]
      have hnv : ¬ ValidName name := fun h => h1 (hv.2 h)
      refine ⟨?_, ?_, ?_⟩
      · simp [hN, hnv]
      · simp [hN]
      · simp [hN, hnv]

/-- C2: `Publish` leaves the heap and the registry alone and starts one goroutine
`sub.SendMessage(msg)` for every element of the slice registered under the topic name
of the message; in whatever order these goroutines run, none panics, every registered
subscription that is open and below capacity ends with the message appended once at the
back of its queue, and every other subscription is as it was. -/
theorem C2_Publish_fans_out (w : World) (msg : Message)
    (hheap : HeapOK w.heap)
    (hptr : ∀ p ∈ mapIndex w.broker.subscriptions msg.Topic.String, p < w.heap.length)
    (hnd : (mapIndex w.broker.subscriptions msg.Topic.String).Nodup) :
    (Broker.Publish msg w).heap = w.heap ∧
    (Broker.Publish msg w).broker = w.broker ∧
    (Broker.Publish msg w).goroutines = w.goroutines ++
      (mapIndex w.broker.subscriptions msg.Topic.String).map (fun sub => (sub, msg)) ∧
    ∀ sched : List (Ptr × Message),
      sched.Perm ((mapIndex w.broker.subscriptions msg.Topic.String).map fun sub => (sub, msg)) →
      ∃ heap', runAll sched w.heap = .ok heap' ∧ heap'.length = w.heap.length ∧
        ∀ p s, w.heap[p]? = some s →
          heap'[p]? = some
            (if p ∈ mapIndex w.broker.subscriptions msg.Topic.String ∧ s.closed = false ∧
                s.messageChannel.buf.length < 200
              then s.enqueue msg else s) := by
  have hpub : Broker.Publish msg w = { w with goroutines := w.goroutines ++
      (mapIndex w.broker.subscriptions msg.Topic.String).map (fun sub => (sub, msg)) } := by
    unfold Broker.Publish
    simp only
    split
    · rename_i h
      rw [List.length_eq_zero.1 h]
      simp
    · rfl
  refine ⟨by rw [hpub], by rw [hpub], by rw [hpub], ?_⟩
  intro sched hperm
  have hfst : (sched.map Prod.fst).Perm (mapIndex w.broker.subscriptions msg.Topic.String) := by
    have := hperm.map Prod.fst
    simpa [List.map_map, Function.comp_def] using this
  obtain ⟨heap', h1, h2, _, h4⟩ := runAll_spec msg sched w.heap hheap
    (by
      intro t ht
      obtain ⟨sub, _, rfl⟩ := List.mem_map.1 (hperm.mem_iff.1 ht)
      rfl)
    (by
      intro t ht
      obtain ⟨sub, hsub, rfl⟩ := List.mem_map.1 (hperm.mem_iff.1 ht)
      exact hptr sub hsub)
    (hfst.nodup_iff.2 hnd)
  refine ⟨heap', h1, h2, ?_⟩
  intro p s hs
  rw [h4 p s hs]
  congr 1
  have e1 : (p ∈ sched.map Prod.fst) = (p ∈ mapIndex w.broker.subscriptions msg.Topic.String) :=
    propext hfst.mem_iff
  have e2 : (s.accepts = true) = (s.closed = false ∧ s.messageChannel.buf.length < 200) := by
    simp [Subscription.accepts]
  simp only [e1, e2]

/-- The test `TestBrokerPublishMultipleSubscribers`, with a fourth subscriber on another
topic: one publish to `users`, the three deliveries run in reverse order. -/
theorem C2_Publish_fans_out_witness :
    HeapOK fourSubscribers.heap ∧
    (∀ p ∈ mapIndex fourSubscribers.broker.subscriptions testMessage.Topic.String,
      p < fourSubscribers.heap.length) ∧
    (mapIndex fourSubscribers.broker.subscriptions testMessage.Topic.String).Nodup ∧
    (Broker.Publish testMessage fourSubscribers).goroutines
      = [(0, testMessage), (1, testMessage), (2, testMessage)] ∧
    (runAll [(2, testMessage), (1, testMessage), (0, testMessage)]
        fourSubscribers.heap).toOption.map
        (fun heap => heap.map fun s => s.messageChannel.buf.map Message.Data)
      = some [["test"], ["test"], ["test"], []] ∧
    ∃ heap', runAll [(2, testMessage), (1, testMessage), (0, testMessage)] fourSubscribers.heap
        = .ok heap' ∧ heap'.length = fourSubscribers.heap.length ∧
      ∀ p s, fourSubscribers.heap[p]? = some s →
        heap'[p]? = some
          (if p ∈ mapIndex fourSubscribers.broker.subscriptions testMessage.Topic.String ∧
              s.closed = false ∧ s.messageChannel.buf.length < 200
            then s.enqueue testMessage else s) :=
  ⟨by decide, by decide, by decide, by decide, by decide,
    (C2_Publish_fans_out fourSubscribers testMessage (by decide) (by decide) (by decide)).2.2.2
      [(2, testMessage), (1, testMessage), (0, testMessage)] (by decide)⟩

/-- C3: in a reachable state `Publish` does not touch the heap, none of the goroutines
it starts targets a subscription whose topic name differs from that of the message, and
however those goroutines are scheduled such a subscription is afterwards exactly what it
was; accordingly every message queued at a subscription, in any reachable state, carries
the topic name of that subscription. -/
theorem C3_Publish_leaves_other_topics (w : World) (msg : Message) (hreach : Reachable w) :
    (Broker.Publish msg w).heap = w.heap ∧
    (∀ (p : Ptr) (s : Subscription), w.heap[p]? = some s →
      s.Topic.String ≠ msg.Topic.String →
        (∀ t ∈ (Broker.Publish msg w).goroutines, t ∉ w.goroutines → t.1 ≠ p) ∧
        ∀ sched : List (Ptr × Message),
          sched.Perm
            ((mapIndex w.broker.subscriptions msg.Topic.String).map fun sub => (sub, msg)) →
          ∃ heap', runAll sched w.heap = .ok heap' ∧ heap'[p]? = some s) ∧
    (∀ s ∈ w.heap, ∀ m ∈ s.messageChannel.buf, m.Topic.String = s.Topic.String) := by
  have hinv := Reachable_Inv w hreach
  have hnot : ∀ (p : Ptr) (s : Subscription), w.heap[p]? = some s →
      s.Topic.String ≠ msg.Topic.String →
        p ∉ mapIndex w.broker.subscriptions msg.Topic.String := by
    intro p s hs hne hp
    obtain ⟨s', h1, h2⟩ := hinv.reg _ p hp
    rw [hs] at h1
    cases h1
    exact hne h2
  refine ⟨?_, ?_, hinv.queues⟩
  · unfold Broker.Publish
    simp only
    split <;> rfl
  · intro p s hs hne
    refine ⟨?_, ?_⟩
    · intro t ht hold hp
      unfold Broker.Publish at ht
      simp only at ht
      split at ht
      · exact hold ht
      · rcases List.mem_append.1 ht with ht | ht
        · exact hold ht
        · obtain ⟨q, hq, rfl⟩ := List.mem_map.1 ht
          exact hnot p s hs hne (hp ▸ hq)
    · intro sched hperm
      have hfst : (sched.map Prod.fst).Perm
          (mapIndex w.broker.subscriptions msg.Topic.String) := by
        have := hperm.map Prod.fst
        simpa [List.map_map, Function.comp_def] using this
      obtain ⟨heap', h1, _, _, h4⟩ := runAll_spec msg sched w.heap hinv.heap
        (by
          intro t ht
          obtain ⟨sub, _, rfl⟩ := List.mem_map.1 (hperm.mem_iff.1 ht)
          rfl)
        (by
          intro t ht
          obtain ⟨sub, hsub, rfl⟩ := List.mem_map.1 (hperm.mem_iff.1 ht)
          obtain ⟨s', hs', _⟩ := hinv.reg _ sub hsub
          exact lt_of_getElem? _ _ s' hs')
        (hfst.nodup_iff.2 (hinv.nodup _))
      refine ⟨heap', h1, ?_⟩
      rw [h4 p s hs, if_neg]
      intro hc
      exact hnot p s hs hne (hfst.mem_iff.1 hc.1)

/-- The test `TestBrokerPublishWrongTopic`, with more subscribers: a message published
to `orders` and delivered leaves the first subscriber on `users` as it was. -/
theorem C3_Publish_leaves_other_topics_witness :
    Reachable fourSubscribers ∧
    (Broker.Publish orderMessage fourSubscribers).goroutines = [(3, orderMessage)] ∧
    (runAll [(3, orderMessage)] fourSubscribers.heap).toOption.map
        (fun heap => heap.map fun s => s.messageChannel.buf.map Message.Data)
      = some [[], [], [], ["order data"]] ∧
    ∃ heap', runAll [(3, orderMessage)] fourSubscribers.heap = .ok heap' ∧
      heap'[0]? = some (NewSubscription [0, 0, 0, 0, 0, 0, 0, 1] 10 usersTopic) :=
  ⟨fourSubscribers_reachable, by decide, by decide,
    ((C3_Publish_leaves_other_topics fourSubscribers orderMessage
        fourSubscribers_reachable).2.1 0
      (NewSubscription [0, 0, 0, 0, 0, 0, 0, 1] 10 usersTopic) (by decide) (by decide)).2
      [(3, orderMessage)] (by decide)⟩

/-- C4: an open subscription whose queue holds 200 messages drops the message:
`SendMessage` returns normally and the subscription is exactly as before. -/
theorem C4_SendMessage_full_drops (s : Subscription) (msg : Message) (hwf : s.WF)
    (hopen : s.closed = false) (hfull : s.messageChannel.buf.length = 200) :
    s.SendMessage msg = .ok s :=
  SendMessage_full s msg hwf hopen hfull

set_option maxRecDepth 8000 in
theorem C4_SendMessage_full_drops_witness :
    fullSubscription.SendMessage (NewMessage [0, 0, 0, 0, 0, 0, 0, 2] 2 ⟨"users"⟩ "y")
      = .ok fullSubscription :=
  C4_SendMessage_full_drops fullSubscription _
    (by decide) (by decide) (by decide)

/-- C5: on a closed subscription `SendMessage` changes nothing, and whenever
`SendMessage` does change the queue the subscription was open (and the change is the
message appended at the back). -/
theorem C5_SendMessage_closed_noop (s : Subscription) (msg : Message) :
    (s.closed = true → s.SendMessage msg = .ok s) ∧
    (∀ s', s.SendMessage msg = .ok s' →
      s'.messageChannel.buf ≠ s.messageChannel.buf →
        s.closed = false ∧ s'.closed = false ∧
          s'.messageChannel.buf = s.messageChannel.buf ++ [msg]) := by
  refine ⟨SendMessage_closed s msg, ?_⟩
  intro s' hs hne
  by_cases hc : s.closed = true
  · rw [SendMessage_closed s msg hc] at hs
    cases hs
    exact absurd rfl hne
  · have hopen : s.closed = false := by simpa using hc
    cases s with
    | mk id topic ch createdAt closed =>
      cases ch with
      | mk buf cap chClosed =>
        simp only at hopen
        subst hopen
        simp only [Subscription.SendMessage, Chan.trySend, Bool.false_eq_true, if_false] at hs
        by_cases h1 : chClosed = true
        · simp [h1] at hs
        · by_cases h2 : buf.length < cap
          · simp [h1, h2] at hs
            subst hs
            simp
          · simp [h1, h2] at hs
            subst hs
            exact absurd rfl hne

/-- C6: an open subscription with fewer than 200 queued messages appends the message at
the back of its queue, a read takes the message at the front, and so after every sequence
of operations the messages read followed by the messages still queued are the messages
queued at the start followed by the accepted messages, in the order of their
`SendMessage` calls. -/
theorem C6_fifo_per_subscriber (s : Subscription) (hwf : s.WF) :
    (∀ msg, s.closed = false → s.messageChannel.buf.length < 200 →
      s.SendMessage msg = .ok (s.enqueue msg)) ∧
    (∀ msg rest, s.messageChannel.buf = msg :: rest →
      s.receive =
        (some msg, { s with messageChannel := { s.messageChannel with buf := rest } })) ∧
    (∀ ops : List SubOp, ∃ t, sessionRun ops ⟨s, [], []⟩ = .ok t ∧
      t.received ++ t.sub.messageChannel.buf = s.messageChannel.buf ++ t.accepted) := by
  refine ⟨fun msg ho hr => SendMessage_room s msg hwf ho hr, receive_cons s, ?_⟩
  intro ops
  obtain ⟨t, h1, _, h3⟩ := sessionRun_fifo ops ⟨s, [], []⟩ s.messageChannel.buf hwf (by simp)
  exact ⟨t, h1, h3⟩

/-- The test `TestSubscriptionSendMessage`: one send to a fresh subscription, one read. -/
theorem C6_fifo_per_subscriber_witness :
    (NewSubscription [1, 2, 3, 4, 5, 6, 7, 8] 0 ⟨"users"⟩).WF ∧
    (∃ t, sessionRun [.send (NewMessage [0, 0, 0, 0, 0, 0, 0, 1] 1 ⟨"users"⟩ "test data"), .read]
        ⟨NewSubscription [1, 2, 3, 4, 5, 6, 7, 8] 0 ⟨"users"⟩, [], []⟩ = .ok t ∧
      t.received ++ t.sub.messageChannel.buf =
        (NewSubscription [1, 2, 3, 4, 5, 6, 7, 8] 0 ⟨"users"⟩).messageChannel.buf ++ t.accepted) ∧
    (sessionRun [.send (NewMessage [0, 0, 0, 0, 0, 0, 0, 1] 1 ⟨"users"⟩ "test data"), .read]
        ⟨NewSubscription [1, 2, 3, 4, 5, 6, 7, 8] 0 ⟨"users"⟩, [], []⟩).toOption.map
      (fun t => t.received.map Message.Data) = some ["test data"] :=
  ⟨by decide,
    (C6_fifo_per_subscriber (NewSubscription [1, 2, 3, 4, 5, 6, 7, 8] 0 ⟨"users"⟩)
      (by decide)).2.2 _, by decide⟩

/-- C7: `Broker.Close` returns normally, leaves the registry without any key, and
every subscription that was registered is closed afterwards (both closed bits set, its
queue as it was), so that a consumer ranging over its channel reaches the end of the
stream after the queued messages. -/
theorem C7_Close_closes_all_and_empties (w : World) (order : List String)
    (hheap : HeapOK w.heap) (hptr : PtrsOK w)
    (hord : order.Perm (mapKeys w.broker.subscriptions)) :
    ∃ w', Broker.Close order w = .ok w' ∧
      w'.broker.subscriptions = [] ∧
      (∀ k, mapHasKey w'.broker.subscriptions k = false) ∧
      ∀ k, ∀ p ∈ mapIndex w.broker.subscriptions k,
        ∃ s, w.heap[p]? = some s ∧ w'.heap[p]? = some s.markClosed ∧
          s.markClosed.closed = true ∧
          rangeChan (s.messageChannel.buf.length + 1) s.markClosed.MessageChannel
            = some s.messageChannel.buf := by
  obtain ⟨heap', h1, h2, h3, h4⟩ :=
    closeTopics_spec w.broker.subscriptions order w.heap hheap (PtrsOK_index w hptr)
  refine ⟨{ w with heap := heap', broker := { subscriptions := [] } }, ?_, rfl, ?_, ?_⟩
  · simp [Broker.Close, h1]
  · intro k
    rfl
  · intro k p hp
    have hlt : p < w.heap.length := PtrsOK_index w hptr k p hp
    have hk : k ∈ order :=
      hord.mem_iff.2 ((mapHasKey_iff _ _).1 (mapHasKey_of_mem_mapIndex _ k p hp))
    refine ⟨w.heap[p], List.getElem?_eq_getElem hlt, ?_, rfl, ?_⟩
    · simp only
      rw [h4 p, if_pos ⟨k, hk, hp⟩, List.getElem?_eq_getElem hlt]
      rfl
    · exact rangeChan_closed w.heap[p].markClosed.MessageChannel rfl

theorem C7_Close_closes_all_and_empties_witness :
    HeapOK fourSubscribers.heap ∧ PtrsOK fourSubscribers ∧
    ["orders", "users"].Perm (mapKeys fourSubscribers.broker.subscriptions) ∧
    ∃ w', Broker.Close ["orders", "users"] fourSubscribers = .ok w' ∧
      w'.broker.subscriptions = [] ∧
      (∀ k, mapHasKey w'.broker.subscriptions k = false) ∧
      ∀ k, ∀ p ∈ mapIndex fourSubscribers.broker.subscriptions k,
        ∃ s, fourSubscribers.heap[p]? = some s ∧ w'.heap[p]? = some s.markClosed ∧
          s.markClosed.closed = true ∧
          rangeChan (s.messageChannel.buf.length + 1) s.markClosed.MessageChannel
            = some s.messageChannel.buf :=
  ⟨by decide, by decide, by decide,
    C7_Close_closes_all_and_empties fourSubscribers ["orders", "users"]
      (by decide) (by decide) (by decide)⟩
/-- C8, as the code has it: `Broker.Close` leaves an empty registry and nothing else that
marks the broker as closed. A `Publish` on the state it returns starts no goroutine and
changes nothing; a `Subscribe` on that state registers a new open subscription under its
topic, and a message then published to that topic is offered to it. -/
theorem C8_after_Close (w w' : World) (order : List String)
    (h : Broker.Close order w = .ok w') :
    (∀ msg, Broker.Publish msg w' = w') ∧
    (∀ rnd now t,
      (Broker.Subscribe rnd now t w').1.broker.subscriptions = [(t.String, [w'.heap.length])] ∧
      (Broker.Subscribe rnd now t w').1.heap = w'.heap ++ [NewSubscription rnd now t] ∧
      (NewSubscription rnd now t).closed = false ∧
      ∀ msg, msg.Topic.String = t.String →
        (Broker.Publish msg (Broker.Subscribe rnd now t w').1).goroutines
          = w'.goroutines ++ [(w'.heap.length, msg)]) := by
  unfold Broker.Close at h
  split at h
  · simp at h
  · rename_i heap' _
    simp only [Except.ok.injEq] at h
    subst h
    refine ⟨?_, ?_⟩
    · intro msg
      simp [Broker.Publish, mapIndex]
    · intro rnd now t
      refine ⟨?_, ?_, rfl, ?_⟩
      · simp [Broker.Subscribe, mapIndex, mapAssign]
      · simp [Broker.Subscribe]
      · intro msg hm
        simp [Broker.Publish, Broker.Subscribe, mapIndex, mapAssign, hm]

theorem C8_after_Close_witness :
    Broker.Close ["users"] oneSubscriber
      = .ok { oneSubscriber with
              heap := oneSubscriber.heap.map Subscription.markClosed
              broker := { subscriptions := [] } } ∧
    (∀ msg,
      Broker.Publish msg { oneSubscriber with
          heap := oneSubscriber.heap.map Subscription.markClosed
          broker := { subscriptions := [] } }
        = { oneSubscriber with
            heap := oneSubscriber.heap.map Subscription.markClosed
            broker := { subscriptions := [] } }) :=
  ⟨by decide, (C8_after_Close oneSubscriber _ ["users"] (by decide)).1⟩

/-- C8 fails as stated: after `Close`, a `Subscribe` registers the new subscription
(the registry is not empty any more), and the next `Publish` to its topic starts a
delivery that puts the message in its queue. -/
theorem C8_Subscribe_after_Close_registers :
    (Broker.Close ["users"] oneSubscriber).toOption.map
        (fun w => (Broker.Subscribe [0, 0, 0, 0, 0, 0, 0, 9] 30 usersTopic w).1.broker.subscriptions)
      = some [("users", [1])] ∧
    (Broker.Close ["users"] oneSubscriber).toOption.map
        (fun w => (Broker.Publish testMessage
          (Broker.Subscribe [0, 0, 0, 0, 0, 0, 0, 9] 30 usersTopic w).1).goroutines)
      = some [(1, testMessage)] ∧
    ((Broker.Close ["users"] oneSubscriber).bind fun w =>
        runGoroutine 0 (Broker.Publish testMessage
          (Broker.Subscribe [0, 0, 0, 0, 0, 0, 0, 9] 30 usersTopic w).1)).toOption.map
        (fun w => w.heap.map fun s => s.messageChannel.buf.map Message.Data)
      = some [[], ["test"]] := by
  decide

/-- C9: when some registered subscription has the id, `Unsubscribe` returns normally
and there is one such subscription `s`, at position `i` of the slice of its topic `k`,
that it has closed and removed: the heap changes at `s` only, the slice of `k` loses
position `i` and keeps the rest in order, every other key keeps its slice, and `k` stops
being a key exactly when `s` was alone in its slice. -/
theorem C9_Unsubscribe_removes_one (w : World) (order : List String) (id : String)
    (hheap : HeapOK w.heap) (hptr : PtrsOK w)
    (hord : order.Perm (mapKeys w.broker.subscriptions))
    (hreg : ∃ k, ∃ p ∈ mapIndex w.broker.subscriptions k,
      ∃ s, w.heap[p]? = some s ∧ s.ID = id) :
    ∃ w' k i p s,
      Broker.Unsubscribe order id w = .ok w' ∧
      (mapIndex w.broker.subscriptions k)[i]? = some p ∧
      w.heap[p]? = some s ∧ s.ID = id ∧
      w'.heap = w.heap.set p s.markClosed ∧ s.markClosed.closed = true ∧
      mapIndex w'.broker.subscriptions k = (mapIndex w.broker.subscriptions k).eraseIdx i ∧
      (∀ k', k' ≠ k →
        mapIndex w'.broker.subscriptions k' = mapIndex w.broker.subscriptions k' ∧
        mapHasKey w'.broker.subscriptions k' = mapHasKey w.broker.subscriptions k') ∧
      (mapHasKey w'.broker.subscriptions k = false ↔
        mapIndex w.broker.subscriptions k = [p]) ∧
      w'.goroutines = w.goroutines :=
  Unsubscribe_found w order id hheap hptr hord hreg

/-- Unsubscribing the second of the three subscribers on `users`. -/
theorem C9_Unsubscribe_removes_one_witness :
    HeapOK fourSubscribers.heap ∧ PtrsOK fourSubscribers ∧
    ["orders", "users"].Perm (mapKeys fourSubscribers.broker.subscriptions) ∧
    (Broker.Unsubscribe ["orders", "users"] "0000000000000002" fourSubscribers).toOption.map
        (fun w => (w.broker, w.heap.map fun s => s.closed))
      = some (⟨[("users", [0, 2]), ("orders", [3])]⟩, [false, true, false, false]) ∧
    ∃ w' k i p s,
      Broker.Unsubscribe ["orders", "users"] "0000000000000002" fourSubscribers = .ok w' ∧
      (mapIndex fourSubscribers.broker.subscriptions k)[i]? = some p ∧
      fourSubscribers.heap[p]? = some s ∧ s.ID = "0000000000000002" ∧
      w'.heap = fourSubscribers.heap.set p s.markClosed ∧ s.markClosed.closed = true ∧
      mapIndex w'.broker.subscriptions k
        = (mapIndex fourSubscribers.broker.subscriptions k).eraseIdx i ∧
      (∀ k', k' ≠ k →
        mapIndex w'.broker.subscriptions k' = mapIndex fourSubscribers.broker.subscriptions k' ∧
        mapHasKey w'.broker.subscriptions k'
          = mapHasKey fourSubscribers.broker.subscriptions k') ∧
      (mapHasKey w'.broker.subscriptions k = false ↔
        mapIndex fourSubscribers.broker.subscriptions k = [p]) ∧
      w'.goroutines = fourSubscribers.goroutines :=
  ⟨by decide, by decide, by decide, by decide,
    C9_Unsubscribe_removes_one fourSubscribers ["orders", "users"] "0000000000000002"
      (by decide) (by decide) (by decide)
      ⟨"users", 1, by decide, NewSubscription [0, 0, 0, 0, 0, 0, 0, 2] 11 usersTopic,
        by decide, by decide⟩⟩

/-- C10: with distinct ids in the registry, `Unsubscribe` of the id of a registered
subscription `s` at address `p` returns normally and leaves `s` closed; in every state
the program reaches afterwards the subscription at `p` is still closed, its queue is what
is left of the queue `s` had after taking some messages off the front (nothing is ever
added), and a consumer ranging over its channel gets what is queued and then the end of
the stream. -/
theorem C10_no_delivery_after_Unsubscribe (w : World) (order : List String) (k : String)
    (p : Ptr) (s : Subscription)
    (hheap : HeapOK w.heap) (hptr : PtrsOK w) (hdist : DistinctIDs w)
    (hord : order.Perm (mapKeys w.broker.subscriptions))
    (hp : p ∈ mapIndex w.broker.subscriptions k) (hs : w.heap[p]? = some s) :
    ∃ w1, Broker.Unsubscribe order s.ID w = .ok w1 ∧
      w1.heap[p]? = some s.markClosed ∧
      ∀ w2, Steps w1 w2 →
        ∃ s2, w2.heap[p]? = some s2 ∧ s2.closed = true ∧
          (∃ n, s2.messageChannel.buf = s.messageChannel.buf.drop n) ∧
          rangeChan (s2.messageChannel.buf.length + 1) s2.MessageChannel
            = some s2.messageChannel.buf := by
  obtain ⟨w1, k1, i, q, s', h1, h2, h3, h4, h5, _⟩ :=
    Unsubscribe_found w order s.ID hheap hptr hord ⟨k, p, hp, s, hs, rfl⟩
  have hqp : q = p :=
    DistinctIDs_index w hdist k1 k q p (List.getElem?_mem h2) hp (by rw [h3, hs]; simp [h4])
  subst hqp
  rw [hs] at h3
  cases h3
  have hlt : q < w.heap.length := lt_of_getElem? w.heap q s hs
  have hq1 : w1.heap[q]? = some s.markClosed := by
    rw [h5]
    simp [List.getElem?_set, hlt]
  refine ⟨w1, h1, hq1, ?_⟩
  intro w2 hsteps
  obtain ⟨s2, g1, g2⟩ := steps_sub w1 w2 hsteps q s.markClosed hq1
  obtain ⟨c1, c2, n, c3⟩ := SubSteps_closed _ _ g2 rfl rfl
  exact ⟨s2, g1, c1, ⟨n, c3⟩, rangeChan_closed s2.MessageChannel c2⟩

/-- Unsubscribing the second subscriber on `users`, then publishing to `users` and
running the deliveries: the unsubscribed queue stays empty, the other two get the
message. -/
theorem C10_no_delivery_after_Unsubscribe_witness :
    HeapOK fourSubscribers.heap ∧ PtrsOK fourSubscribers ∧ DistinctIDs fourSubscribers ∧
    ["orders", "users"].Perm (mapKeys fourSubscribers.broker.subscriptions) ∧
    (((Broker.Unsubscribe ["orders", "users"] "0000000000000002" fourSubscribers).bind
        fun w => (runGoroutine 0 (Broker.Publish testMessage w)).bind (runGoroutine 0)).toOption.map
        fun w => w.heap.map fun s => (s.closed, s.messageChannel.buf.map Message.Data))
      = some [(false, ["test"]), (true, []), (false, ["test"]), (false, [])] ∧
    ∃ w1, Broker.Unsubscribe ["orders", "users"]
        (NewSubscription [0, 0, 0, 0, 0, 0, 0, 2] 11 usersTopic).ID fourSubscribers = .ok w1 ∧
      w1.heap[1]? = some (NewSubscription [0, 0, 0, 0, 0, 0, 0, 2] 11 usersTopic).markClosed ∧
      ∀ w2, Steps w1 w2 →
        ∃ s2, w2.heap[1]? = some s2 ∧ s2.closed = true ∧
          (∃ n, s2.messageChannel.buf
            = (NewSubscription [0, 0, 0, 0, 0, 0, 0, 2] 11 usersTopic).messageChannel.buf.drop n) ∧
          rangeChan (s2.messageChannel.buf.length + 1) s2.MessageChannel
            = some s2.messageChannel.buf :=
  ⟨by decide, by decide, by decide, by decide, by decide,
    C10_no_delivery_after_Unsubscribe fourSubscribers ["orders", "users"] "users" 1
      (NewSubscription [0, 0, 0, 0, 0, 0, 0, 2] 11 usersTopic)
      (by decide) (by decide) (by decide) (by decide) (by decide) (by decide)⟩

/-- C11: when no registered subscription has the id, `Unsubscribe` returns normally
with the state it was given, whatever the order of the keys: registry, heap and pending
goroutines are the same. In particular, in a state with distinct ids that satisfies the
invariant, an `Unsubscribe` of an id followed by a second `Unsubscribe` of the same id
leaves the state the first call produced. -/
theorem C11_Unsubscribe_unknown_noop (w : World) (order : List String) (id : String) :
    (PtrsOK w → NoSuchID w id → Broker.Unsubscribe order id w = .ok w) ∧
    (Inv w → DistinctIDs w → order.Perm (mapKeys w.broker.subscriptions) →
      ∀ w1, Broker.Unsubscribe order id w = .ok w1 →
        ∀ order', Broker.Unsubscribe order' id w1 = .ok w1) := by
  refine ⟨fun hptr hno => Unsubscribe_unknown order id w (NoSuchID_index w id hptr hno), ?_⟩
  intro hinv hdist hord w1 h1 order'
  exact Unsubscribe_unknown order' id w1 (Unsubscribe_id_gone order id w w1 hinv hdist hord h1)

/-- An id nobody has, and the id of the second subscriber unsubscribed twice. -/
theorem C11_Unsubscribe_unknown_noop_witness :
    Broker.Unsubscribe ["users", "orders"] "00000000000000ff" fourSubscribers
      = .ok fourSubscribers ∧
    ((Broker.Unsubscribe ["users", "orders"] "0000000000000002" fourSubscribers).bind
        (Broker.Unsubscribe ["orders", "users"] "0000000000000002"))
      = Broker.Unsubscribe ["users", "orders"] "0000000000000002" fourSubscribers ∧
    (∀ w1, Broker.Unsubscribe ["users", "orders"] "0000000000000002" fourSubscribers = .ok w1 →
      ∀ order', Broker.Unsubscribe order' "0000000000000002" w1 = .ok w1) :=
  ⟨(C11_Unsubscribe_unknown_noop fourSubscribers ["users", "orders"] "00000000000000ff").1
      (by decide) (by decide),
    by decide,
    (C11_Unsubscribe_unknown_noop fourSubscribers ["users", "orders"] "0000000000000002").2
      (Reachable_Inv _ fourSubscribers_reachable) (by decide) (by decide)⟩

/-- C12: when the slice registered under the topic name of the message is empty (in
particular when the name is not a key), `Publish` returns the state it was given: no
goroutine is started, registry and subscriptions are the same. -/
theorem C12_Publish_without_subscribers (w : World) (msg : Message)
    (h : mapIndex w.broker.subscriptions msg.Topic.String = []) :
    Broker.Publish msg w = w ∧
    ∀ i, runGoroutine i (Broker.Publish msg w) = runGoroutine i w := by
  rw [Publish_of_nil msg w h]
  exact ⟨rfl, fun _ => rfl⟩

/-- The first part of `TestBrokerPublish`: a publish on a new broker, and a publish to
`orders` when only `users` has a subscriber. -/
theorem C12_Publish_without_subscribers_witness :
    mapIndex NewBroker.broker.subscriptions testMessage.Topic.String = [] ∧
    Broker.Publish testMessage NewBroker = NewBroker ∧
    Broker.Publish orderMessage oneSubscriber = oneSubscriber :=
  ⟨by decide, (C12_Publish_without_subscribers NewBroker testMessage (by decide)).1,
    (C12_Publish_without_subscribers oneSubscriber orderMessage (by decide)).1⟩

/-- C13: let the topic `t` have exactly one registered subscription, open and with an
empty queue, and let at most 200 messages for `t` be published. `Publish` starts exactly
one delivery per message; in whatever order the deliveries run, none panics and the
queue of the subscription ends up holding the published messages, each exactly once (it
is a permutation of the list published, in the order of the deliveries); a consumer that
reads once more than there are messages receives exactly these messages. -/
theorem C13_each_message_delivered_once (w : World) (t : String) (p : Ptr)
    (s : Subscription) (msgs : List Message)
    (hheap : HeapOK w.heap) (hreg : mapIndex w.broker.subscriptions t = [p])
    (hs : w.heap[p]? = some s) (hopen : s.closed = false)
    (hempty : s.messageChannel.buf = [])
    (htopic : ∀ m ∈ msgs, m.Topic.String = t) (hn : msgs.length ≤ 200) :
    (publishAll msgs w).heap = w.heap ∧
    (publishAll msgs w).goroutines = w.goroutines ++ msgs.map (fun m => (p, m)) ∧
    ∀ sched : List (Ptr × Message), sched.Perm (msgs.map fun m => (p, m)) →
      ∃ heap' s', runAll sched w.heap = .ok heap' ∧ heap'[p]? = some s' ∧
        s'.messageChannel.buf = sched.map Prod.snd ∧
        s'.messageChannel.buf.Perm msgs ∧
        s'.messageChannel.buf.length = msgs.length ∧
        ∃ r, sessionRun (List.replicate (msgs.length + 1) .read) ⟨s', [], []⟩ = .ok r ∧
          r.received = s'.messageChannel.buf ∧ r.received.length = msgs.length := by
  have hpub := publishAll_single msgs w t p hreg htopic
  refine ⟨by rw [hpub], by rw [hpub], ?_⟩
  intro sched hperm
  have hlen : sched.length = msgs.length := by
    rw [hperm.length_eq, List.length_map]
  have hsnd : (sched.map Prod.snd).Perm msgs := by
    have := hperm.map Prod.snd
    simpa [List.map_map, Function.comp_def] using this
  obtain ⟨heap', h1, _, h3, _⟩ := runAll_single p sched w.heap s hheap
    (by
      intro tk htk
      obtain ⟨m, _, rfl⟩ := List.mem_map.1 (hperm.mem_iff.1 htk)
      rfl)
    hs hopen (by rw [hempty, hlen]; simpa using hn)
  have hbuf : (s.enqueueAll (sched.map Prod.snd)).messageChannel.buf = sched.map Prod.snd := by
    simp [Subscription.enqueueAll, hempty]
  have hblen : (s.enqueueAll (sched.map Prod.snd)).messageChannel.buf.length = msgs.length := by
    rw [hbuf, List.length_map, hlen]
  refine ⟨heap', s.enqueueAll (sched.map Prod.snd), h1, h3, hbuf, by rw [hbuf]; exact hsnd,
    hblen, ?_⟩
  obtain ⟨r, g1, g2, _, _⟩ := reads_drain 1 ⟨s.enqueueAll (sched.map Prod.snd), [], []⟩
  rw [hblen] at g1
  refine ⟨r, g1, by simpa using g2, ?_⟩
  rw [g2]
  simpa using hblen

/-- One subscriber on `users`, three messages published, delivered in another order. -/
theorem C13_each_message_delivered_once_witness :
    HeapOK oneSubscriber.heap ∧
    mapIndex oneSubscriber.broker.subscriptions "users" = [0] ∧
    (publishAll threeMessages oneSubscriber).goroutines
      = threeMessages.map (fun m => (0, m)) ∧
    (runAll (threeMessages.reverse.map fun m => (0, m)) oneSubscriber.heap).toOption.map
        (fun heap => heap.map fun s => s.messageChannel.buf.map Message.Data)
      = some [["c", "b", "a"]] ∧
    ∃ heap' s', runAll (threeMessages.reverse.map fun m => (0, m)) oneSubscriber.heap
        = .ok heap' ∧ heap'[0]? = some s' ∧
      s'.messageChannel.buf = (threeMessages.reverse.map fun m => (0, m)).map Prod.snd ∧
      s'.messageChannel.buf.Perm threeMessages ∧
      s'.messageChannel.buf.length = threeMessages.length ∧
      ∃ r, sessionRun (List.replicate (threeMessages.length + 1) .read) ⟨s', [], []⟩ = .ok r ∧
        r.received = s'.messageChannel.buf ∧ r.received.length = threeMessages.length :=
  ⟨by decide, by decide, by decide, by decide,
    (C13_each_message_delivered_once oneSubscriber "users" 0
      (NewSubscription [0, 0, 0, 0, 0, 0, 0, 1] 10 usersTopic) threeMessages
      (by decide) (by decide) (by decide) (by decide) (by decide) (by decide)
      (by decide)).2.2 (threeMessages.reverse.map fun m => (0, m)) (by decide)⟩

/-- C14: in every reachable state a topic name is a key of the registry exactly when
the slice it is bound to is non-empty; no entry of the registry has an empty slice and
no key occurs twice. -/
theorem C14_key_iff_nonempty (w : World) (hreach : Reachable w) :
    (∀ k, mapHasKey w.broker.subscriptions k = true ↔
      mapIndex w.broker.subscriptions k ≠ []) ∧
    (∀ e ∈ w.broker.subscriptions, e.2 ≠ []) ∧
    (mapKeys w.broker.subscriptions).Nodup :=
  ⟨KeysOK_iff _ (Reachable_KeysOK w hreach), (Reachable_KeysOK w hreach).2,
    (Reachable_KeysOK w hreach).1⟩

/-- After the last subscriber on `orders` is unsubscribed the key `orders` is gone. -/
theorem C14_key_iff_nonempty_witness :
    Reachable ordersUnsubscribed ∧
    mapHasKey ordersUnsubscribed.broker.subscriptions "orders" = false ∧
    (∀ k, mapHasKey ordersUnsubscribed.broker.subscriptions k = true ↔
      mapIndex ordersUnsubscribed.broker.subscriptions k ≠ []) :=
  ⟨ordersUnsubscribed_reachable, by decide,
    (C14_key_iff_nonempty ordersUnsubscribed ordersUnsubscribed_reachable).1⟩

/-- C15: `Subscribe` allocates a new subscription and returns its address; the
subscription is for the topic given, open, with an empty queue; the slice of the topic
name is the old slice with the new address appended at the end, and the name is a key
afterwards; every other key keeps its slice, every subscription allocated before is
unchanged at its address, and no goroutine is started. -/
theorem C15_Subscribe_appends (rnd : List (Fin 256)) (now : Nat) (t : Topic) (w : World) :
    (Broker.Subscribe rnd now t w).2 = w.heap.length ∧
    (Broker.Subscribe rnd now t w).1.heap = w.heap ++ [NewSubscription rnd now t] ∧
    (Broker.Subscribe rnd now t w).1.heap[(Broker.Subscribe rnd now t w).2]?
      = some (NewSubscription rnd now t) ∧
    (NewSubscription rnd now t).Topic = t ∧
    (NewSubscription rnd now t).closed = false ∧
    (NewSubscription rnd now t).MessageChannel = { buf := [], cap := 200, closed := false } ∧
    mapIndex (Broker.Subscribe rnd now t w).1.broker.subscriptions t.String
      = mapIndex w.broker.subscriptions t.String ++ [(Broker.Subscribe rnd now t w).2] ∧
    mapHasKey (Broker.Subscribe rnd now t w).1.broker.subscriptions t.String = true ∧
    (∀ k, k ≠ t.String →
      mapIndex (Broker.Subscribe rnd now t w).1.broker.subscriptions k
        = mapIndex w.broker.subscriptions k ∧
      mapHasKey (Broker.Subscribe rnd now t w).1.broker.subscriptions k
        = mapHasKey w.broker.subscriptions k) ∧
    (∀ (p : Ptr) (s : Subscription), w.heap[p]? = some s →
      (Broker.Subscribe rnd now t w).1.heap[p]? = some s) ∧
    (Broker.Subscribe rnd now t w).1.goroutines = w.goroutines := by
  refine ⟨rfl, rfl, ?_, rfl, rfl, rfl, ?_, ?_, ?_, ?_, rfl⟩
  · simp [Broker.Subscribe]
  · simp [Broker.Subscribe, mapIndex_mapAssign]
  · simp [Broker.Subscribe, mapHasKey_mapAssign]
  · intro k hk
    have hne : ¬ t.String = k := fun h => hk h.symm
    simp [Broker.Subscribe, mapIndex_mapAssign, mapHasKey_mapAssign, hne]
  · intro p s hs
    simp only [Broker.Subscribe]
    rw [List.getElem?_append_left (lt_of_getElem? _ p s hs)]
    exact hs

/-- C16: whenever `Close` returns normally the subscription it returns is closed, has
the queue it had, and a second `Close` returns that same subscription without touching
the channel again; on a well-formed subscription `Close` always returns normally, so
calling it twice gives what calling it once gives. -/
theorem C16_Subscription_Close_idempotent (s : Subscription) :
    (∀ s1, s.Close = .ok s1 →
      s1.closed = true ∧ s1.messageChannel.buf = s.messageChannel.buf ∧
        s1.Close = .ok s1) ∧
    (s.WF →
      s.Close = .ok s.markClosed ∧ s.markClosed.WF ∧
        (s.Close).bind Subscription.Close = s.Close) := by
  refine ⟨?_, ?_⟩
  · intro s1 h
    obtain ⟨h1, h2, _⟩ := Close_ok_closed s s1 h
    exact ⟨h1, h2, Close_closed s1 h1⟩
  · intro hwf
    refine ⟨Close_eq s hwf, markClosed_WF s hwf, ?_⟩
    rw [Close_eq s hwf]
    exact Close_closed s.markClosed rfl

/-- The test `TestSubscriptionClose`, with a second call. -/
theorem C16_Subscription_Close_idempotent_witness :
    (NewSubscription [0, 0, 0, 0, 0, 0, 0, 1] 10 usersTopic).WF ∧
    ((NewSubscription [0, 0, 0, 0, 0, 0, 0, 1] 10 usersTopic).Close).bind Subscription.Close
      = (NewSubscription [0, 0, 0, 0, 0, 0, 0, 1] 10 usersTopic).Close ∧
    (NewSubscription [0, 0, 0, 0, 0, 0, 0, 1] 10 usersTopic).Close
      = .ok (NewSubscription [0, 0, 0, 0, 0, 0, 0, 1] 10 usersTopic).markClosed :=
  ⟨by decide,
    ((C16_Subscription_Close_idempotent
      (NewSubscription [0, 0, 0, 0, 0, 0, 0, 1] 10 usersTopic)).2 (by decide)).2.2,
    by decide⟩

/-- C17: a `Close` on the state a `Close` returned gives that state back, for any order
of the keys, because the registry it finds is empty; on a well-formed state the first
`Close` returns normally, so two calls in a row give what one call gives. -/
theorem C17_Broker_Close_idempotent (w : World) (order order' : List String) :
    (∀ w1, Broker.Close order w = .ok w1 →
      w1.broker.subscriptions = [] ∧ Broker.Close order' w1 = .ok w1) ∧
    (HeapOK w.heap → PtrsOK w →
      (∃ w1, Broker.Close order w = .ok w1) ∧
        (Broker.Close order w).bind (Broker.Close order') = Broker.Close order w) := by
  have h1 : ∀ w1, Broker.Close order w = .ok w1 →
      w1.broker.subscriptions = [] ∧ Broker.Close order' w1 = .ok w1 := by
    intro w1 h
    have he := Close_ok_registry order w w1 h
    exact ⟨he, Close_of_empty order' w1 he⟩
  refine ⟨h1, ?_⟩
  intro hheap hptr
  obtain ⟨w1, hw1⟩ := Close_total order w hheap hptr
  refine ⟨⟨w1, hw1⟩, ?_⟩
  rw [hw1]
  exact (h1 w1 hw1).2

/-- Closing the broker with four subscribers twice. -/
theorem C17_Broker_Close_idempotent_witness :
    HeapOK fourSubscribers.heap ∧ PtrsOK fourSubscribers ∧
    (Broker.Close ["users", "orders"] fourSubscribers).bind (Broker.Close [])
      = Broker.Close ["users", "orders"] fourSubscribers ∧
    (Broker.Close ["users", "orders"] fourSubscribers).toOption.map
        (fun w => (w.broker, w.heap.map fun s => s.closed))
      = some (⟨[]⟩, [true, true, true, true]) :=
  ⟨by decide, by decide,
    ((C17_Broker_Close_idempotent fourSubscribers ["users", "orders"] []).2
      (by decide) (by decide)).2,
    by decide⟩

/-- C18: `Close` on an open subscription returns normally and leaves the queue as it
was, so a consumer ranging over the channel afterwards gets exactly the messages that
were queued, in their order, and then the end of the stream; before the `Close` the
range does not end; and a receive reports the end of the stream only on a channel that
is both closed and drained. -/
theorem C18_Close_keeps_queued_messages (s : Subscription) (hwf : s.WF)
    (hopen : s.closed = false) :
    s.Close = .ok s.markClosed ∧
    s.markClosed.messageChannel.buf = s.messageChannel.buf ∧
    rangeChan (s.messageChannel.buf.length + 1) s.markClosed.MessageChannel
      = some s.messageChannel.buf ∧
    (∀ fuel, rangeChan fuel s.MessageChannel = none) ∧
    (∀ ch : Chan, ch.recv = .endOfStream ↔ ch.closed = true ∧ ch.buf = []) := by
  refine ⟨Close_eq s hwf, rfl, rangeChan_closed s.markClosed.MessageChannel rfl, ?_,
    recv_endOfStream_iff⟩
  intro fuel
  exact rangeChan_open fuel s.MessageChannel (by
    have := hwf.1
    rw [hopen] at this
    exact this)

/-- Two messages queued, then `Close`: the consumer still gets both, in order. -/
theorem C18_Close_keeps_queued_messages_witness :
    twoQueued.WF ∧ twoQueued.closed = false ∧
    ((twoQueued.Close).toOption.bind fun s => rangeChan 3 s.MessageChannel).map
        (fun msgs => msgs.map Message.Data)
      = some ["first", "second"] ∧
    rangeChan (twoQueued.messageChannel.buf.length + 1) twoQueued.markClosed.MessageChannel
      = some twoQueued.messageChannel.buf :=
  ⟨by decide, by decide, by decide,
    (C18_Close_keeps_queued_messages twoQueued (by decide) (by decide)).2.2.1⟩

/-- C19: a subscription whose `closed` field is set keeps it set: after any sequence of
`SendMessage`, `Close` and reads on it, and, for a subscription in the heap, in every
state the program reaches by `Subscribe`, `Unsubscribe`, `Publish`, `Close`, deliveries
and reads. -/
theorem C19_closed_is_permanent :
    (∀ s s' : Subscription, Relation.ReflTransGen SubStep s s' →
      s.closed = true → s'.closed = true) ∧
    (∀ (ops : List SubOp) (t t' : Session), sessionRun ops t = .ok t' →
      t.sub.closed = true → t'.sub.closed = true) ∧
    (∀ (w w' : World) (p : Ptr) (s : Subscription), Steps w w' → w.heap[p]? = some s →
      s.closed = true → ∃ s', w'.heap[p]? = some s' ∧ s'.closed = true) := by
  refine ⟨SubSteps_closed_flag, ?_, ?_⟩
  · intro ops t t' h hc
    exact SubSteps_closed_flag _ _ (sessionRun_SubSteps ops t t' h) hc
  · intro w w' p s hsteps hs hc
    obtain ⟨s', h1, h2⟩ := steps_sub w w' hsteps p s hs
    exact ⟨s', h1, SubSteps_closed_flag s s' h2 hc⟩

/-- C20 does not hold of the code. Two subscribers are registered on `users`. A
`Publish` reads the slice of `users` (both subscribers) and releases the read lock; an
`Unsubscribe` of the first subscriber then runs to completion and moves the second
subscriber one cell to the front inside the shared backing array; the loop of the
`Publish` now finds the second subscriber in both cells and starts two deliveries to it,
and after both have run its queue holds the message twice. With a `Subscribe` in between
as well, the new subscription is written into the same array and the loop delivers to
it, although it was not registered when the slice was read. When nothing runs between
the two halves of `Publish`, each subscriber gets one delivery. -/
theorem C20_Publish_overtaken_by_Unsubscribe :
    Sliced.Broker.PublishSnapshot testMessage Sliced.twoOnUsers
      = { arr := 1, len := 2, cap := 2 } ∧
    (Sliced.Broker.Publish testMessage Sliced.twoOnUsers).toOption.map
        (fun w => w.goroutines.map Prod.fst)
      = some [0, 1] ∧
    ((Sliced.Broker.Unsubscribe ["users"] "0000000000000001" Sliced.twoOnUsers).bind
        (Sliced.Broker.PublishLoop
          (Sliced.Broker.PublishSnapshot testMessage Sliced.twoOnUsers) testMessage)).toOption.map
        (fun w => w.goroutines)
      = some [(1, testMessage), (1, testMessage)] ∧
    ((((Sliced.Broker.Unsubscribe ["users"] "0000000000000001" Sliced.twoOnUsers).bind
        (Sliced.Broker.PublishLoop
          (Sliced.Broker.PublishSnapshot testMessage Sliced.twoOnUsers) testMessage)).bind
        (Sliced.runGoroutine 0)).bind (Sliced.runGoroutine 0)).toOption.map
        (fun w => w.heap.map fun s => (s.closed, s.messageChannel.buf.map Message.Data))
      = some [(true, []), (false, ["test", "test"])] ∧
    ((Sliced.Broker.Unsubscribe ["users"] "0000000000000001" Sliced.twoOnUsers).bind
        fun w => Sliced.Broker.PublishLoop
          (Sliced.Broker.PublishSnapshot testMessage Sliced.twoOnUsers) testMessage
          (Sliced.Broker.Subscribe [0, 0, 0, 0, 0, 0, 0, 3] 12 usersTopic w).1).toOption.map
        (fun w => w.goroutines.map Prod.fst)
      = some [1, 2] := by
  decide

/-- C21: for 8 random bytes, `generateMessageID` and `generateSubscriptionID` both
return the hex encoding of the bytes, two digits per byte with the high half first: a
string of exactly 16 characters, each one of `0123456789abcdef`, and so not empty; the
bytes can be read back from the id, so different bytes give different ids. -/
theorem C21_id_is_hex_of_random_bytes (rnd : List (Fin 256)) (h : rnd.length = 8) :
    generateSubscriptionID rnd = generateMessageID rnd ∧
    (generateMessageID rnd).toList
      = rnd.flatMap (fun b => [hexDigit (b.val / 16), hexDigit (b.val % 16)]) ∧
    (generateMessageID rnd).length = 16 ∧
    (∀ c ∈ (generateMessageID rnd).toList, c ∈ "0123456789abcdef".toList) ∧
    generateMessageID rnd ≠ "" ∧
    (∀ rnd' : List (Fin 256), rnd' ≠ rnd → generateMessageID rnd' ≠ generateMessageID rnd) := by
  have hlen : (generateMessageID rnd).length = 16 := by
    unfold generateMessageID
    rw [hexEncode_length, h]
  refine ⟨rfl, rfl, hlen, hexEncode_digits rnd, ?_, ?_⟩
  · intro he
    rw [he] at hlen
    exact absurd hlen (by decide)
  · intro rnd' hne he
    exact hne (hexEncode_inj rnd' rnd he)

/-- Eight bytes and their id. -/
theorem C21_id_is_hex_of_random_bytes_witness :
    generateMessageID [222, 173, 190, 239, 0, 1, 2, 255] = "deadbeef000102ff" ∧
    generateSubscriptionID [222, 173, 190, 239, 0, 1, 2, 255] = "deadbeef000102ff" ∧
    (generateMessageID [222, 173, 190, 239, 0, 1, 2, 255]).length = 16 :=
  ⟨by decide, by decide,
    (C21_id_is_hex_of_random_bytes [222, 173, 190, 239, 0, 1, 2, 255] (by decide)).2.2.1⟩

/-- C22: `Equals` is true exactly when the two names are the same string, character by
character, and so exactly when the two topics are the same value; the comparison
distinguishes upper and lower case, as in the cases of `TestTopicEquals`. -/
theorem C22_Equals_iff_same_name (a b : Topic) :
    (a.Equals b = true ↔ a.String = b.String) ∧
    (a.Equals b = true ↔ a.name.toList = b.name.toList) ∧
    (a.Equals b = true ↔ a = b) ∧
    ((New "Users").toOption.bind fun t1 =>
      (New "users").toOption.map fun t2 => t1.Equals t2) = some false ∧
    ((New "users").toOption.bind fun t1 =>
      (New "users").toOption.map fun t2 => t1.Equals t2) = some true ∧
    ((New "users").toOption.bind fun t1 =>
      (New "orders").toOption.map fun t2 => t1.Equals t2) = some false := by
  refine ⟨?_, ?_, ?_, by decide, by decide, by decide⟩
  · simp [Topic.Equals, Topic.String]
  · simp only [Topic.Equals, beq_iff_eq]
    constructor
    · intro h; rw [h]
    · intro h; exact String.ext h
  · simp only [Topic.Equals, beq_iff_eq]
    constructor
    · intro h
      cases a
      cases b
      simp only at h
      rw [h]
    · intro h; rw [h]

/-- C23: starting from `NewSubscription`, every sequence of `SendMessage`, `Close` and
reads runs without a panic and ends in a subscription whose channel has capacity 200 and
holds at most 200 messages; the same bound holds for every subscription in the heap of
every reachable state of the program. -/
theorem C23_queue_is_bounded (rnd : List (Fin 256)) (now : Nat) (t : Topic) :
    (∀ ops : List SubOp,
      ∃ tr, sessionRun ops ⟨NewSubscription rnd now t, [], []⟩ = .ok tr ∧
        tr.sub.MessageChannel.cap = 200 ∧ tr.sub.MessageChannel.buf.length ≤ 200) ∧
    (∀ s' : Subscription, Relation.ReflTransGen SubStep (NewSubscription rnd now t) s' →
      s'.MessageChannel.buf.length ≤ 200) ∧
    (∀ w : World, Reachable w → ∀ s ∈ w.heap, s.MessageChannel.buf.length ≤ 200) := by
  refine ⟨?_, ?_, ?_⟩
  · intro ops
    obtain ⟨tr, h1, h2, _⟩ := sessionRun_fifo ops ⟨NewSubscription rnd now t, [], []⟩ []
      (NewSubscription_WF rnd now t) rfl
    exact ⟨tr, h1, h2.2.1, h2.2.2⟩
  · intro s' h
    exact (SubSteps_WF _ s' h (NewSubscription_WF rnd now t)).2.2
  · intro w hreach s hs
    exact ((Reachable_Inv w hreach).heap s hs).2.2

set_option maxRecDepth 100000 in
/-- A new subscription sent 201 messages holds 200 of them. -/
theorem C23_queue_is_bounded_witness :
    (sessionRun (List.replicate 201 (.send testMessage))
        ⟨NewSubscription [0, 0, 0, 0, 0, 0, 0, 1] 10 usersTopic, [], []⟩).toOption.map
        (fun tr => tr.sub.MessageChannel.buf.length) = some 200 ∧
    ∃ tr, sessionRun (List.replicate 201 (.send testMessage))
        ⟨NewSubscription [0, 0, 0, 0, 0, 0, 0, 1] 10 usersTopic, [], []⟩ = .ok tr ∧
      tr.sub.MessageChannel.cap = 200 ∧ tr.sub.MessageChannel.buf.length ≤ 200 :=
  ⟨by decide,
    (C23_queue_is_bounded [0, 0, 0, 0, 0, 0, 0, 1] 10 usersTopic).1 _⟩

/-- C24: in every reachable state every pointer in the registry, entry by entry and
equally through the slice a key is bound to, points to an allocated subscription whose
`closed` field and channel are both open; and after any further step a subscription that
is closed is not in the registry, so `Unsubscribe` and `Close` close only what they
remove in that same step. -/
theorem C24_registered_subscriptions_are_open (w : World) (hreach : Reachable w) :
    (∀ e ∈ w.broker.subscriptions, ∀ p ∈ e.2,
      ∃ s, w.heap[p]? = some s ∧ s.closed = false ∧ s.MessageChannel.closed = false) ∧
    (∀ k, ∀ p ∈ mapIndex w.broker.subscriptions k,
      ∃ s, w.heap[p]? = some s ∧ s.closed = false ∧ s.MessageChannel.closed = false) ∧
    (∀ (op : Op) (w' : World), step op w = .ok w' →
      ∀ (p : Ptr) (s' : Subscription), w'.heap[p]? = some s' → s'.closed = true →
        ∀ k, p ∉ mapIndex w'.broker.subscriptions k) := by
  have hinv := Reachable_Inv w hreach
  have hopen := Reachable_OpenOK w hreach
  have hkeys := Reachable_KeysOK w hreach
  have hidx : ∀ k, ∀ p ∈ mapIndex w.broker.subscriptions k,
      ∃ s, w.heap[p]? = some s ∧ s.closed = false ∧ s.MessageChannel.closed = false := by
    intro k p hp
    obtain ⟨s, h1, h2⟩ := hopen k p hp
    have hwf := hinv.heap s (List.getElem?_mem h1)
    exact ⟨s, h1, h2, hwf.1.trans h2⟩
  refine ⟨?_, hidx, ?_⟩
  · intro e he p hp
    exact hidx e.1 p (by rw [mapIndex_of_mem _ hkeys.1 e he]; exact hp)
  · intro op w' hstep p s' hs' hc k hp
    obtain ⟨s, h1, h2⟩ := step_OpenOK op w w' hinv hopen hstep k p hp
    rw [hs'] at h1
    cases h1
    rw [hc] at h2
    exact Bool.noConfusion h2

/-- After the subscriber on `orders` is unsubscribed it is closed and out of the
registry; the three subscribers left in the registry are open. -/
theorem C24_registered_subscriptions_are_open_witness :
    Reachable ordersUnsubscribed ∧
    ordersUnsubscribed.broker.subscriptions = [("users", [0, 1, 2])] ∧
    ordersUnsubscribed.heap.map (fun s => s.closed) = [false, false, false, true] ∧
    (∀ e ∈ ordersUnsubscribed.broker.subscriptions, ∀ p ∈ e.2,
      ∃ s, ordersUnsubscribed.heap[p]? = some s ∧ s.closed = false ∧
        s.MessageChannel.closed = false) :=
  ⟨ordersUnsubscribed_reachable, by decide, by decide,
    (C24_registered_subscriptions_are_open ordersUnsubscribed
      ordersUnsubscribed_reachable).1⟩

end Gophercast
